import Mathlib

/-!
# Verification development for `cli.h` / `args.hpp`

The development has two parts: the namespace `args` embeds the C++ header
`src/args.hpp`, and the namespace `cli_h`, introduced further down, embeds the
C header `src/cli.h`. The definitions of both come first, then the auxiliary
lemmas, then the theorems about the claims.

Shallow embedding of `src/args.hpp` (namespace `args`): the value coercions
`parse_value<T>`, `Argument::emplace_parsed`, and the class `Cli_Parser` with
its two parsing strategies `unordered_parse` and `ordered_parse`.

Modelling conventions.
* A `std::string` (and a NUL-terminated `argv[i]`) is the list of its
  characters, `Str`.  `argc` is `argv.length`.
* `std::map<std::string, Argument>` is an association list kept in strictly
  ascending key order (`std::less<std::string>`, lexicographic), which is the
  order in which a range-for visits it.
* A C++ exception leaving a function is an explicit result (`Except`,
  `Outcome.threw`).
* `std::stol` is modelled after `strtol` in base 10 with a 64-bit `long`;
  `std::stod` yields a floating-point number and is kept as a parameter `stod`.
-/

namespace args

/-- A `std::string`, as the list of its characters. -/
abbrev Str := List Char

/-- The standard exceptions that the embedded code can raise. -/
inductive StdException
  | invalid_argument
  | out_of_range
  deriving DecidableEq

/-! ## Library functions used by the source -/

/-- The function `std::isspace` in the "C" locale. -/
def isspace (c : Char) : Bool :=
  c = ' ' || c = '\t' || c = '\n' || c = '\x0b' || c = '\x0c' || c = '\r'

/-- Largest value of a 64-bit `long`. -/
def LONG_MAX : Int := 9223372036854775807

/-- Smallest value of a 64-bit `long`. -/
def LONG_MIN : Int := -9223372036854775808

/-- Value of a run of decimal digits. -/
def digits_value (ds : List Char) : Nat :=
  ds.foldl (fun acc c => 10 * acc + (c.toNat - 48)) 0

/-- The function `std::stol(str)` (base 10): skip leading white space, read an
optional sign and the longest run of decimal digits; `invalid_argument` when
there is no digit, `out_of_range` when the value does not fit a `long`.
Characters after the digits are ignored. -/
def stol (str : Str) : Except StdException Int :=
  let body := str.dropWhile isspace
  let signed : Bool × Str :=
    match body with
    | '-' :: r => (true, r)
    | '+' :: r => (false, r)
    | _ => (false, body)
  let ds := signed.2.takeWhile Char.isDigit
  if ds.isEmpty then .error .invalid_argument
  else
    let magnitude : Int := (digits_value ds : Nat)
    let v : Int := if signed.1 then -magnitude else magnitude
    if v < LONG_MIN ∨ LONG_MAX < v then .error .out_of_range else .ok v

/-- One call `std::getline(ss, line, delim)` on the unread text of the stream:
`none` when no character can be extracted (the call sets failbit and the loop
ends), else the line without its delimiter and the text left unread. -/
def getline (delim : Char) : Str → Option (Str × Str)
  | [] => none
  | c :: cs =>
    if c = delim then some ([], cs)
    else
      match getline delim cs with
      | none => some ([c], [])
      | some (line, rest) => some (c :: line, rest)

/-- The loop `for (std::string line; std::getline(ss, line, delim);)
str_vec.emplace_back(line)` over the unread text of the stream: each
`getline` extracts up to and including the next `delim` (the delimiter is
dropped), a last line without delimiter is extracted when it is not empty, and
the loop ends when nothing can be extracted. -/
def getlines (delim : Char) : Str → List Str
  | [] => []
  | c :: cs =>
    if c = delim then [] :: getlines delim cs
    else
      match getlines delim cs with
      | [] => [[c]]
      | line :: lines => (c :: line) :: lines

/-! ## Data model -/

/-- The variant `opt_var_arg` with the default alternatives
`std::optional<long>`, `std::optional<double>`, `std::optional<std::string>`,
`std::optional<std::vector<std::string>>`. -/
inductive opt_var_arg
  | long (v : Option Int)
  | double (v : Option Float)
  | string (v : Option Str)
  | strings (v : Option (List Str))

/-- Index of the alternative a variant holds (`std::variant::index`). -/
def opt_var_arg.index : opt_var_arg → Nat
  | .long _ => 0
  | .double _ => 1
  | .string _ => 2
  | .strings _ => 3

/-- Whether the optional held by the variant has a value. -/
def opt_var_arg.has_value : opt_var_arg → Bool
  | .long v => v.isSome
  | .double v => v.isSome
  | .string v => v.isSome
  | .strings v => v.isSome

/-- The struct `Argument`. -/
structure Argument where
  flag : Str
  help_str : Str
  value : opt_var_arg

/-- The function `parse_value<long>`. -/
def parse_value_long (args_str : Str) (_args_delim : Char) : Except StdException Int :=
  stol args_str

/-- The function `parse_value<double>`, with `std::stod` as parameter. -/
def parse_value_double (stod : Str → Except StdException Float)
    (args_str : Str) (_args_delim : Char) : Except StdException Float :=
  stod args_str

/-- The function `parse_value<std::string>`. -/
def parse_value_string (args_str : Str) (_args_delim : Char) : Str :=
  args_str

/-- The function `parse_value<std::vector<std::string>>`. -/
def parse_value_strings (args_str : Str) (args_delim : Char) : List Str :=
  getlines args_delim args_str

/-- The method `Argument::emplace_parsed`: `std::visit` picks the
`parse_value<T>` of the alternative held and assigns its result to the
optional.  When `parse_value<T>` throws, nothing is assigned. -/
def Argument.emplace_parsed (stod : Str → Except StdException Float)
    (a : Argument) (str : Str) (delim : Char) : Except StdException Argument :=
  match a.value with
  | .long _ =>
    match parse_value_long str delim with
    | .error e => .error e
    | .ok v => .ok { a with value := .long (some v) }
  | .double _ =>
    match parse_value_double stod str delim with
    | .error e => .error e
    | .ok v => .ok { a with value := .double (some v) }
  | .string _ => .ok { a with value := .string (some (parse_value_string str delim)) }
  | .strings _ => .ok { a with value := .strings (some (parse_value_strings str delim)) }

/-- The comparison `std::less<std::string>`: lexicographic order. -/
def str_less : Str → Str → Bool
  | [], [] => false
  | [], _ :: _ => true
  | _ :: _, [] => false
  | a :: as, b :: bs => if a < b then true else if b < a then false else str_less as bs

/-- The member `m_ArgsMap`, a `std::map<std::string, Argument>`: its entries
in iteration order. -/
abbrev ArgsMap := List (Str × Argument)

/-- The keys of the map in iteration order. -/
def ArgsMap.keys (m : ArgsMap) : List Str := m.map Prod.fst

/-- The invariant of `std::map`: keys strictly ascending. -/
def ArgsMap.ordered (m : ArgsMap) : Prop :=
  m.keys.Pairwise (fun a b => str_less a b = true)

/-- The method `std::map::contains`. -/
def ArgsMap.contains : ArgsMap → Str → Bool
  | [], _ => false
  | (k, _) :: m, key => if k = key then true else ArgsMap.contains m key

/-- The method `std::map::at`; `none` stands for the `std::out_of_range` it
throws on a missing key. -/
def ArgsMap.at : ArgsMap → Str → Option Argument
  | [], _ => none
  | (k, a) :: m, key => if k = key then some a else ArgsMap.at m key

/-- Assignment through the reference returned by `std::map::at`. -/
def ArgsMap.assign : ArgsMap → Str → Argument → ArgsMap
  | [], _, _ => []
  | (k, a) :: m, key, a' =>
    if k = key then (k, a') :: m else (k, a) :: ArgsMap.assign m key a'

/-- The method `std::map::emplace`: inserts at the key's place in the order,
and leaves the map untouched when the key is already there. -/
def ArgsMap.emplace : ArgsMap → Str → Argument → ArgsMap
  | [], key, a => [(key, a)]
  | (k, b) :: m, key, a =>
    if k = key then (k, b) :: m
    else if str_less key k then (key, a) :: (k, b) :: m
    else (k, b) :: ArgsMap.emplace m key a

/-- The class `Cli_Parser`. -/
structure Cli_Parser where
  delim : Char
  m_ArgsMap : ArgsMap
  m_ErrorMsg : Str
  m_OrderMaters : Bool

/-- The constructor `Cli_Parser(orderMaters, delim)`. -/
def Cli_Parser.new (orderMaters : Bool) (delim : Char) : Cli_Parser :=
  { delim := delim, m_ArgsMap := [], m_ErrorMsg := [], m_OrderMaters := orderMaters }

/-- The method `Cli_Parser::add<T>`; the variant to store is passed
explicitly. -/
def Cli_Parser.add (p : Cli_Parser) (flag help_str : Str) (value : opt_var_arg) :
    Cli_Parser :=
  { p with m_ArgsMap := p.m_ArgsMap.emplace flag ⟨flag, help_str, value⟩ }

/-- How a call of `parse` ends: it returns a `bool`, or an exception leaves it. -/
inductive Outcome
  | returned (result : Bool)
  | threw (e : StdException)
  deriving DecidableEq

/-- The state in which `parse` ends: its outcome, the value of the local
`i` at that moment, and the parser object. -/
structure Run where
  outcome : Outcome
  i : Nat
  parser : Cli_Parser

/-- The message of `check_still_left`. -/
def msg_expected_value (key : Str) : Str :=
  "Expected a value to key \x27".toList ++ key ++ "\x27 at the end".toList

/-- The message of `unordered_parse` for a key that is not in the map. -/
def msg_unexpected_key (key : Str) : Str :=
  "Did NOT expect key \x27".toList ++ key ++ "\x27. forgot to call .add(\"".toList
    ++ key ++ "\")?".toList

/-- The message of `ordered_parse` for a token that is not a flag. -/
def msg_not_flag (str : Str) : Str :=
  "Expected \x27".toList ++ str ++ "\x27 to be a flag (starts with \x27-\x27)".toList

/-- The message of `ordered_parse` for a flag other than the expected one. -/
def msg_wrong_key (argvKey key : Str) : Str :=
  "Expected \x27".toList ++ argvKey ++ "\x27 to be a key for key \x27".toList
    ++ key ++ "\x27".toList

/-- The method `check_still_left`: the result and the parser afterwards. -/
def Cli_Parser.check_still_left (p : Cli_Parser) (index argc : Nat) (key : Str) :
    Bool × Cli_Parser :=
  if index ≥ argc then (false, { p with m_ErrorMsg := msg_expected_value key })
  else (true, p)

/-- Whether a token starts with the character `-`
(`*argv[i] == '-'`, `str.starts_with('-')`). -/
def is_flag (tok : Str) : Bool := tok.head? = some '-'

/-- The collecting loop of `set_argument_value`,
`for (; i < argc && *argv[i] != '-'; i++)`, run over the tokens from index `i`
on: the final `i` and `arg_str`. -/
def collect (delim : Char) : List Str → Nat → Str → Nat × Str
  | [], i, arg_str => (i, arg_str)
  | tok :: rest, i, arg_str =>
    if is_flag tok then (i, arg_str)
    else collect delim rest (i + 1) (arg_str ++ tok ++ [delim])

/-- The method `set_argument_value`: the new `i` and parser, or the exception
thrown by `m_ArgsMap.at` or by the coercion (the parser is then unchanged).
The `i--` before and `i++` after `emplace_parsed` cancel. -/
def Cli_Parser.set_argument_value (stod : Str → Except StdException Float)
    (p : Cli_Parser) (key : Str) (i : Nat) (argv : List Str) :
    Except StdException (Nat × Cli_Parser) :=
  match p.m_ArgsMap.at key with
  | none => .error .out_of_range
  | some argument =>
    let collected := collect p.delim (argv.drop i) i []
    match argument.emplace_parsed stod collected.2 p.delim with
    | .error e => .error e
    | .ok argument' =>
      .ok (collected.1, { p with m_ArgsMap := p.m_ArgsMap.assign key argument' })

/-- The loop of `unordered_parse`, entered at its condition `i < argc` with
the given `i`; every iteration uses one unit of `fuel`, and `none` means the
fuel ran out. -/
def unordered_loop (stod : Str → Except StdException Float) :
    Nat → Nat → Cli_Parser → List Str → Option Run
  | 0, _, _, _ => none
  | fuel + 1, i, p, argv =>
    match argv[i]? with
    | none => some ⟨.returned true, i, p⟩
    | some str =>
      if is_flag str then
        let key := str.drop 1
        let i := i + 1
        if !p.m_ArgsMap.contains key then
          some ⟨.returned false, i, { p with m_ErrorMsg := msg_unexpected_key key }⟩
        else
          match p.check_still_left i argv.length key with
          | (false, p') => some ⟨.returned false, i, p'⟩
          | (true, p') =>
            match p'.set_argument_value stod key i argv with
            | .error e => some ⟨.threw e, i, p'⟩
            | .ok (i', p'') => unordered_loop stod fuel (i' + 1) p'' argv
      else unordered_loop stod fuel (i + 1) p argv

/-- The method `unordered_parse`. The loop starts at `i = 1` and `i` grows in
every iteration, so `argc + 1` iterations are enough. -/
def Cli_Parser.unordered_parse (stod : Str → Except StdException Float)
    (p : Cli_Parser) (argv : List Str) : Option Run :=
  unordered_loop stod (argv.length + 1) 1 p argv

/-- The loop of `ordered_parse` over the keys of the map still to visit. -/
def ordered_loop (stod : Str → Except StdException Float) :
    List Str → Nat → Cli_Parser → List Str → Run
  | [], i, p, _ => ⟨.returned true, i, p⟩
  | key :: keys, i, p, argv =>
    match p.check_still_left i argv.length key with
    | (false, p') => ⟨.returned false, i, p'⟩
    | (true, p') =>
      let str := argv.getD i []
      if !is_flag str then
        ⟨.returned false, i, { p' with m_ErrorMsg := msg_not_flag str }⟩
      else
        let argvKey := str.drop 1
        if argvKey ≠ key then
          ⟨.returned false, i, { p' with m_ErrorMsg := msg_wrong_key argvKey key }⟩
        else
          let i := i + 1
          match p'.set_argument_value stod key i argv with
          | .error e => ⟨.threw e, i, p'⟩
          | .ok (i', p'') => ordered_loop stod keys i' p'' argv

/-- The method `ordered_parse`. -/
def Cli_Parser.ordered_parse (stod : Str → Except StdException Float)
    (p : Cli_Parser) (argv : List Str) : Run :=
  ordered_loop stod p.m_ArgsMap.keys 1 p argv

/-- The method `parse`. -/
def Cli_Parser.parse (stod : Str → Except StdException Float)
    (p : Cli_Parser) (argv : List Str) : Option Run :=
  if p.m_OrderMaters then some (p.ordered_parse stod argv) else p.unordered_parse stod argv

/-! ## Token vectors made of flag-value groups -/

/-- The text `set_argument_value` builds from value tokens: each token followed by the delimiter. -/
def span_text (delim : Char) : List Str → Str
  | [] => []
  | tok :: rest => tok ++ delim :: span_text delim rest

/-- A token list that cannot extend a value span: empty, or headed by a flag token. -/
def span_end : List Str → Bool
  | [] => true
  | tok :: _ => is_flag tok

/-- The tokens of one flag-value group. -/
def group_tokens (g : Str × List Str) : List Str := ('-' :: g.1) :: g.2

/-- The tokens of a sequence of flag-value groups. -/
def groups_tokens : List (Str × List Str) → List Str
  | [] => []
  | g :: gs => group_tokens g ++ groups_tokens gs

/-! ## Concrete registries used in the examples -/

/-- The registry of the spec's example, built by `add("name")` then
`add("age")`: `name` is a Text declaration, `age` an Integer one, both still
without value. -/
def example_cli (orderMaters : Bool) : Cli_Parser :=
  ((Cli_Parser.new orderMaters ' ').add "name".toList [] (.string none)).add
    "age".toList [] (.long none)

/-- The value stored under a key, when the key is registered. -/
def Cli_Parser.stored (p : Cli_Parser) (key : Str) : Option opt_var_arg :=
  (p.m_ArgsMap.at key).map Argument.value

/-- The conversion passed for `std::stod` in the concrete examples. No example
has a Float declaration, so it is never called; it rejects every text. -/
def stod_example : Str → Except StdException Float := fun _ => .error .invalid_argument

/-- Strings joined by single delimiter characters, the delimiter standing
between consecutive strings only. -/
def join_with (delim : Char) : List Str → Str
  | [] => []
  | [t] => t
  | t :: u :: rest => t ++ delim :: join_with delim (u :: rest)

/-- A registry of two Integer declarations `a` and `b`, unordered mode. -/
def example_ab : Cli_Parser :=
  ((Cli_Parser.new false ' ').add "a".toList [] (.long none)).add "b".toList [] (.long none)

/-- Index of the token at which a run that returned `false` stopped:
`ordered_parse` returns `false` with `i` on that token, `unordered_parse`
returns `false` after the `i++` that follows reading the flag token. -/
def Run.failing_token (orderMaters : Bool) (r : Run) : Nat :=
  if orderMaters then r.i else r.i - 1

/-- The run of `parse` in unordered mode on `prog -name x -age 5 -zzz` with the
registry {name: Text, age: Integer}: `false`, returned for the token `-zzz` of
index 5 after `name` was stored. -/
def example_run_unordered : Run :=
  ⟨.returned false, 6,
    { example_cli false with
      m_ErrorMsg := msg_unexpected_key "zzz".toList
      m_ArgsMap := [("age".toList, ⟨"age".toList, [], .long none⟩),
        ("name".toList, ⟨"name".toList, [], .string (some "x ".toList)⟩)] }⟩

/-- The run of `parse` in ordered mode on `prog -age 5 -zzz 1` with the same
registry: `false`, returned for the token `-zzz` of index 3 after `age` was
stored. -/
def example_run_ordered : Run :=
  ⟨.returned false, 3,
    { example_cli true with
      m_ErrorMsg := msg_wrong_key "zzz".toList "name".toList
      m_ArgsMap := [("age".toList, ⟨"age".toList, [], .long (some 5)⟩),
        ("name".toList, ⟨"name".toList, [], .string none⟩)] }⟩

/-- The maximal run of consecutive tokens from index `i0` on that do not begin
with `-`. -/
def value_run (argv : List Str) (i0 : Nat) : List Str :=
  (argv.drop i0).takeWhile (fun t => !is_flag t)

end args

/-! # The C library `cli.h`

Shallow embedding of `src/cli.h`: the registry `arg_list`, a singly linked list
of `cli_arg` objects built by `cli_add` and `cli_list_add`, the token matcher
`cli_match_arg`, the value readers `cli_get_arg_data` and `cli_get_arg_str`,
and the driver `cli_build`.

Modelling conventions.
* The `cli_arg` objects live in a heap, a list in which an object's address is
  its position; a pointer is `some address` or `none` for `NULL`.
* A call that aborts on an `assert` or whose behaviour is undefined ends in a
  `Fault`.
* `malloc` is taken to succeed.
-/

namespace cli_h

/-- A NUL-terminated C string, as the list of its characters before the NUL. -/
abbrev CStr := List Char

/-- The ways in which a call can end without returning: an `assert` aborts, the
behaviour is undefined (a read through a null pointer or past the end of a
string, an `atoi` result out of range), or the fuel of a modelled loop ran
out. -/
inductive Fault
  | assert_failed
  | undefined
  | out_of_fuel
  deriving DecidableEq

/-- The enum `Arg_Type`. -/
inductive Arg_Type
  | Arg_bool
  | Arg_str
  | Arg_int
  deriving DecidableEq

/-- What the pointer `data` of a declaration points to. -/
inductive Data
  | bool (b : Bool)
  | int (n : Int)
  | str (s : CStr)
  deriving DecidableEq

/-- The struct `cli_arg`. A pointer to a `cli_arg` is its address in the heap;
`none` is `NULL`. -/
structure cli_arg where
  flag : Option CStr
  name : Option CStr
  desc : Option CStr
  optional : Bool
  type : Arg_Type
  data : Option Data
  next : Option Nat
  deriving DecidableEq

/-- The struct `cli_arg_list`. -/
structure cli_arg_list where
  head : Option Nat
  tail : Option Nat
  size : Nat
  deriving DecidableEq

/-- The memory the library works on: the `cli_arg` objects obtained from
`malloc`, an object's address being its position, and the static `arg_list`. -/
structure State where
  heap : List cli_arg
  arg_list : cli_arg_list
  deriving DecidableEq

/-- The state at program start: nothing allocated, `arg_list` zero-initialised. -/
def State.init : State := ⟨[], ⟨none, none, 0⟩⟩

/-- The function `cli_arg_alloc`: `malloc` is taken to succeed and returns a
fresh address; the object there is written by the caller before it is read. -/
def cli_arg_alloc (st : State) : Nat × State :=
  (st.heap.length,
    { st with heap := st.heap ++ [⟨none, none, none, false, .Arg_bool, none, none⟩] })

/-- The function `cli_list_add`. -/
def cli_list_add (st : State) (arg : Nat) : Except Fault State :=
  match st.arg_list.head with
  | none =>
    .ok { st with arg_list := ⟨some arg, some arg, st.arg_list.size + 1⟩ }
  | some head =>
    match st.arg_list.tail with
    | none => .error .undefined
    | some tail =>
      match st.heap[tail]? with
      | none => .error .undefined
      | some node =>
        .ok { heap := st.heap.set tail { node with next := some arg },
              arg_list := ⟨some head, some arg, st.arg_list.size + 1⟩ }

/-- The function `cli_add`. -/
def cli_add (st : State) (type : Arg_Type) (name flag desc : Option CStr) (optional : Bool) :
    Except Fault State :=
  match name with
  | none => .error .assert_failed
  | some _ =>
    let alloc := cli_arg_alloc st
    let arg := alloc.1
    let st1 := alloc.2
    let st2 : State :=
      { st1 with heap := st1.heap.set arg ⟨flag, name, desc, optional, type, none, none⟩ }
    cli_list_add st2 arg

/-- The arguments of one call of `cli_add`. -/
structure Call where
  type : Arg_Type
  name : CStr
  flag : Option CStr
  desc : Option CStr
  optional : Bool
  deriving DecidableEq

/-- A sequence of calls of `cli_add`, one after the other. -/
def cli_add_all : State → List Call → Except Fault State
  | st, [] => .ok st
  | st, c :: cs =>
    match cli_add st c.type (some c.name) c.flag c.desc c.optional with
    | .error e => .error e
    | .ok st' => cli_add_all st' cs

/-- The traversal `for (arg = p; arg; arg = arg->next)`: the objects met, in
order. `none` when more than `fuel` objects are met or a pointer is not the
address of an object. -/
def walk (heap : List cli_arg) : Nat → Option Nat → Option (List cli_arg)
  | _, none => some []
  | 0, some _ => none
  | fuel + 1, some a =>
    match heap[a]? with
    | none => none
    | some node => (walk heap fuel node.next).map (node :: ·)

/-- The function `strstr(haystack, needle)`, as the test `!= NULL`: whether
`needle` occurs in `haystack`. -/
def strstr : CStr → CStr → Bool
  | [], needle => needle.isEmpty
  | c :: cs, needle => needle.isPrefixOf (c :: cs) || strstr cs needle

/-- The condition of `cli_match_arg` on one token,
`*(ptr++) == '-' && strstr(ptr, arg->flag) || strstr(ptr, arg->name)`, in
which `&&` binds tighter than `||`. On an empty token `ptr` is moved past the
terminating NUL and then read. -/
def cli_match_token (arg : cli_arg) (tok : CStr) : Except Fault Bool :=
  match tok with
  | [] => .error .undefined
  | c :: ptr =>
    let by_name : Except Fault Bool :=
      match arg.name with
      | none => .error .undefined
      | some name => .ok (strstr ptr name)
    if c = '-' then
      match arg.flag with
      | none => .error .undefined
      | some flag => if strstr ptr flag then .ok true else by_name
    else by_name

/-- The loop of `cli_match_arg` over the tokens from index `start` on, with
the `return start < argc ? start : 0` that follows it. -/
def cli_match_scan (arg : cli_arg) : List CStr → Nat → Except Fault Nat
  | [], _ => .ok 0
  | tok :: rest, start =>
    match cli_match_token arg tok with
    | .error e => .error e
    | .ok true => .ok start
    | .ok false => cli_match_scan arg rest (start + 1)

/-- The function `cli_match_arg`. -/
def cli_match_arg (arg : cli_arg) (start : Nat) (argv : List CStr) : Except Fault Nat :=
  if start < argv.length then cli_match_scan arg (argv.drop start) start
  else .error .assert_failed

/-- Largest value of an `int`. -/
def INT_MAX : Int := 2147483647

/-- Smallest value of an `int`. -/
def INT_MIN : Int := -2147483648

/-- The function `atoi`: skip leading white space, read an optional sign and
the longest run of decimal digits (0 when there is none); the behaviour is
undefined when the value does not fit an `int`. -/
def atoi (s : CStr) : Except Fault Int :=
  let body := s.dropWhile args.isspace
  let signed : Bool × CStr :=
    match body with
    | '-' :: r => (true, r)
    | '+' :: r => (false, r)
    | _ => (false, body)
  let magnitude : Int := (args.digits_value (signed.2.takeWhile Char.isDigit) : Nat)
  let v : Int := if signed.1 then -magnitude else magnitude
  if v < INT_MIN ∨ INT_MAX < v then .error .undefined else .ok v

/-- The strings met by the loops of `cli_get_arg_str`,
`for (; i < argc && *ptr != '-'; i++, ptr = argv[i])`: `ptr` is the current
string and `following` the tokens `argv[i+1..]`. -/
def str_pieces : CStr → List CStr → List CStr
  | ptr, [] => if ptr.head? = some '-' then [] else [ptr]
  | ptr, tok :: rest => if ptr.head? = some '-' then [] else ptr :: str_pieces tok rest

/-- The function `cli_get_arg_str`: the number of strings consumed and the
buffer stored in `*dest`. The model takes the buffer from `malloc` to start
with a NUL, as the `strcat` calls need, and does not track that it is one byte
short of the text written to it. -/
def cli_get_arg_str (start : Option CStr) (arg0 : Nat) (argv : List CStr) :
    Nat × Option CStr :=
  let pieces : List CStr :=
    match argv[arg0]? with
    | none => []
    | some tok => str_pieces (start.getD tok) (argv.drop (arg0 + 1))
  let size : Nat := (pieces.map (fun s => s.length + 1)).sum
  if size = 0 then (0, none)
  else (pieces.length, some (pieces.flatMap (fun s => s ++ [' '])))

/-- The function `cli_get_arg_data`: the value returned and the declaration
afterwards. The pointer `ptr = argv[start] + len + 1` may be read only when
`len + 1 <= strlen(argv[start])`. -/
def cli_get_arg_data (arg : cli_arg) (start : Nat) (argv : List CStr) :
    Except Fault (Nat × cli_arg) :=
  match argv[start]? with
  | none => .error .assert_failed
  | some tok =>
    match (match arg.flag with | some flag => some flag | none => arg.name) with
    | none => .error .undefined
    | some fl =>
      let vlen := tok.length
      let len := fl.length
      if vlen < len then .ok (0, arg)
      else
        match arg.type with
        | .Arg_str =>
          if len + 1 ≤ vlen then
            let got := cli_get_arg_str (some (tok.drop (len + 1))) start argv
            if got.1 ≠ 0 then .ok (got.1, { arg with data := got.2.map Data.str })
            else .ok (0, arg)
          else .error .undefined
        | .Arg_int =>
          if len + 1 ≤ vlen then
            match atoi (tok.drop (len + 1)) with
            | .error e => .error e
            | .ok n => .ok (1, { arg with data := some (.int n) })
          else .error .undefined
        | .Arg_bool => .ok (0, arg)

/-- The loop of `cli_build`, entered at its condition with the given `arg` and
`i`: the pointer returned and the state afterwards. Every iteration uses one
unit of `fuel`. -/
def cli_build_loop : Nat → State → Option Nat → Nat → List CStr →
    Except Fault (Option Nat × State)
  | 0, _, _, _, _ => .error .out_of_fuel
  | fuel + 1, st, arg, i, argv =>
    match arg with
    | none => .ok (none, st)
    | some a =>
      if i < argv.length then
        match st.heap[a]? with
        | none => .error .undefined
        | some node =>
          match cli_match_arg node i argv with
          | .error e => .error e
          | .ok found =>
            if node.type = .Arg_bool then
              cli_build_loop fuel
                { st with heap := st.heap.set a { node with data := some (.bool (found != 0)) } }
                node.next (i + 1) argv
            else if found ≠ 0 then
              match cli_get_arg_data node found argv with
              | .error e => .error e
              | .ok (advance, node') =>
                if advance = 0 then .ok (some a, { st with heap := st.heap.set a node' })
                else
                  cli_build_loop fuel { st with heap := st.heap.set a node' } node'.next
                    (i + advance) argv
            else .ok (some a, st)
      else .ok (some a, st)

/-- The function `cli_build`. The loop starts at `i = 1` and `i` grows in every
iteration, so `argc + 1` units of fuel are enough. -/
def cli_build (st : State) (argv : List CStr) : Except Fault (Option Nat × State) :=
  cli_build_loop (argv.length + 1) st st.arg_list.head 1 argv

/-- The values stored in the declarations, in the order of the heap. -/
def State.values (st : State) : List (Option Data) := st.heap.map cli_arg.data

/-- The result of `cli_build` on the registry built by the given calls of
`cli_add` from the initial state: the pointer returned and the stored values. -/
def build_after (calls : List Call) (argv : List CStr) :
    Except Fault (Option Nat × List (Option Data)) :=
  match cli_add_all State.init calls with
  | .error e => .error e
  | .ok st =>
    match cli_build st argv with
    | .error e => .error e
    | .ok (ret, st') => .ok (ret, st'.values)

/-- The object `cli_add` writes for a call, with the given `next`. -/
def decl_of (c : Call) (next : Option Nat) : cli_arg :=
  ⟨c.flag, some c.name, c.desc, c.optional, c.type, none, next⟩

/-- The objects of a list of `n` declarations linked in order, for the calls
from position `k` on: the object at address `j` points to address `j + 1`, the
last one to `NULL`. -/
def nodes_from (n : Nat) : Nat → List Call → List cli_arg
  | _, [] => []
  | k, c :: cs => decl_of c (if k + 1 < n then some (k + 1) else none) :: nodes_from n (k + 1) cs

/-- The heap holding the declarations of the given calls linked in call order. -/
def heap_of (cs : List Call) : List cli_arg := nodes_from cs.length 0 cs

/-- The state holding the declarations of the given calls linked in call
order: `head` is the first, `tail` the last, `size` their number. -/
def state_of (cs : List Call) : State :=
  ⟨heap_of cs,
    ⟨if cs.length = 0 then none else some 0,
      if cs.length = 0 then none else some (cs.length - 1), cs.length⟩⟩

/-- The call `cli_int("age", "age", NULL)`. -/
def call_age : Call := ⟨.Arg_int, "age".toList, some "age".toList, none, false⟩

/-- The call `cli_bool("verbose", "verbose", NULL)`. -/
def call_verbose : Call := ⟨.Arg_bool, "verbose".toList, some "verbose".toList, none, false⟩

/-- The call `cli_str("name", "name", NULL)`. -/
def call_name : Call := ⟨.Arg_str, "name".toList, some "name".toList, none, false⟩

/-- The call `cli_str("name", "n", NULL)`. -/
def call_name_n : Call := ⟨.Arg_str, "name".toList, some "n".toList, none, false⟩

/-- The call `cli_int("name", "abcde", NULL)`. -/
def call_name_abcde : Call := ⟨.Arg_int, "name".toList, some "abcde".toList, none, false⟩

/-- A `cli_arg` object moved one address up together with the object it points
to: its `next` is one more. -/
def shift_next (n : cli_arg) : cli_arg := { n with next := n.next.map (· + 1) }

/-- An index returned by `cli_match_arg` for a token vector, as the index in
the vector with one token put in front: 0 (not found) stays 0. -/
def bump (found : Nat) : Nat := if found = 0 then 0 else found + 1

/-- The call `cli_int("name", "name", NULL)`. -/
def call_name_int : Call := ⟨.Arg_int, "name".toList, some "name".toList, none, false⟩

end cli_h

namespace args

/-! ## Auxiliary lemmas -/

theorem collect_fst_ge (delim : Char) (l : List Str) (i : Nat) (s : Str) :
    i ≤ (collect delim l i s).1 := by
  induction l generalizing i s with
  | nil => simp [collect]
  | cons tok rest ih =>
    unfold collect
    split
    · exact Nat.le_refl i
    · exact Nat.le_trans (Nat.le_succ i) (ih (i + 1) _)

theorem collect_span (delim : Char) (vals rest : List Str) (i : Nat) (s : Str)
    (hv : ∀ t ∈ vals, is_flag t = false) (hr : span_end rest = true) :
    collect delim (vals ++ rest) i s = (i + vals.length, s ++ span_text delim vals) := by
  induction vals generalizing i s with
  | nil =>
    cases rest with
    | nil => simp [collect, span_text]
    | cons tok rest => 
      simp only [span_end] at hr
      simp [collect, span_text, hr]
  | cons tok vals ih =>
    have h1 : is_flag tok = false := hv tok (List.mem_cons_self _ _)
    have h2 : ∀ t ∈ vals, is_flag t = false := fun t ht => hv t (List.mem_cons_of_mem _ ht)
    rw [List.cons_append, collect, if_neg (by simp [h1]), ih (i + 1) _ h2]
    simp [span_text, Nat.add_comm, Nat.add_left_comm, List.append_assoc]

theorem collect_take (delim : Char) (l : List Str) (i : Nat) (s : Str) (n : Nat)
    (h : (collect delim l i s).1 ≤ i + n) :
    collect delim (l.take n) i s = collect delim l i s := by
  induction l generalizing i s n with
  | nil => simp
  | cons tok rest ih =>
    cases n with
    | zero =>
      simp only [List.take_zero, collect]
      unfold collect at h ⊢
      split
      · rfl
      · rename_i hf
        simp only [hf] at h
        have := collect_fst_ge delim rest (i + 1) (s ++ tok ++ [delim])
        rw [Nat.add_zero, if_neg (by simp)] at h
        omega
    | succ n =>
      simp only [List.take_succ_cons]
      unfold collect at h ⊢
      split
      · rfl
      · rename_i hf
        simp only [hf] at h
        rw [if_neg (by simp)] at h
        apply ih
        omega

theorem span_end_groups_tokens (gs : List (Str × List Str)) :
    span_end (groups_tokens gs) = true := by
  cases gs with
  | nil => rfl
  | cons g gs => simp [groups_tokens, group_tokens, span_end, is_flag]

theorem at_assign_self (m : ArgsMap) (key : Str) (a a' : Argument)
    (h : m.at key = some a) : (m.assign key a').at key = some a' := by
  induction m with
  | nil => simp [ArgsMap.at] at h
  | cons e m ih =>
    obtain ⟨k, b⟩ := e
    by_cases hk : k = key
    · simp [ArgsMap.assign, ArgsMap.at, hk]
    · simp only [ArgsMap.at, hk, if_false] at h
      simp [ArgsMap.assign, ArgsMap.at, hk, ih h]

theorem at_assign_ne (m : ArgsMap) (key k : Str) (a' : Argument) (h : k ≠ key) :
    (m.assign key a').at k = m.at k := by
  induction m with
  | nil => rfl
  | cons e m ih =>
    obtain ⟨k0, b⟩ := e
    by_cases hk : k0 = key
    · have : k0 ≠ k := fun e => h (e ▸ hk)
      simp [ArgsMap.assign, ArgsMap.at, hk, this, hk ▸ this]
    · by_cases hk2 : k0 = k
      · subst hk2
        simp [ArgsMap.assign, ArgsMap.at, hk]
      · simp [ArgsMap.assign, ArgsMap.at, hk, hk2, ih]

theorem keys_assign (m : ArgsMap) (key : Str) (a' : Argument) :
    (m.assign key a').keys = m.keys := by
  induction m with
  | nil => rfl
  | cons e m ih =>
    obtain ⟨k0, b⟩ := e
    by_cases hk : k0 = key
    · simp [ArgsMap.assign, ArgsMap.keys, hk]
    · simp only [ArgsMap.keys] at ih
      simp [ArgsMap.assign, ArgsMap.keys, hk, ih]

theorem contains_eq_isSome (m : ArgsMap) (key : Str) :
    m.contains key = (m.at key).isSome := by
  induction m with
  | nil => rfl
  | cons e m ih =>
    obtain ⟨k0, b⟩ := e
    by_cases hk : k0 = key
    · simp [ArgsMap.contains, ArgsMap.at, hk]
    · simp [ArgsMap.contains, ArgsMap.at, hk, ih]

theorem at_isSome_of_mem_keys (m : ArgsMap) (key : Str) (h : key ∈ m.keys) :
    ∃ a, m.at key = some a := by
  induction m with
  | nil => simp [ArgsMap.keys] at h
  | cons e m ih =>
    obtain ⟨k0, b⟩ := e
    by_cases hk : k0 = key
    · exact ⟨b, by simp [ArgsMap.at, hk]⟩
    · have : key ∈ ArgsMap.keys m := by
        simp only [ArgsMap.keys, List.map_cons, List.mem_cons] at h
        rcases h with h | h
        · exact absurd h.symm hk
        · exact h
      obtain ⟨a, ha⟩ := ih this
      exact ⟨a, by simp [ArgsMap.at, hk, ha]⟩

theorem str_less_irrefl (a : Str) : str_less a a = false := by
  induction a with
  | nil => rfl
  | cons c cs ih => simp [str_less, ih]

theorem ordered_keys_nodup (m : ArgsMap) (h : m.ordered) : m.keys.Nodup := by
  unfold ArgsMap.ordered at h
  refine List.Pairwise.imp ?_ h
  intro a b hab e
  rw [e, str_less_irrefl] at hab
  exact Bool.false_ne_true hab

theorem emplace_parsed_ok_value (stod : Str → Except StdException Float) (a a' : Argument)
    (str : Str) (delim : Char) (h : a.emplace_parsed stod str delim = .ok a') :
    a'.value.has_value = true ∧ a'.value.index = a.value.index ∧
      a'.flag = a.flag ∧ a'.help_str = a.help_str := by
  unfold Argument.emplace_parsed at h
  split at h
  · split at h
    · cases h
    · cases h; simp_all [opt_var_arg.has_value, opt_var_arg.index]
  · split at h
    · cases h
    · cases h; simp_all [opt_var_arg.has_value, opt_var_arg.index]
  · cases h; simp_all [opt_var_arg.has_value, opt_var_arg.index]
  · cases h; simp_all [opt_var_arg.has_value, opt_var_arg.index]

theorem set_argument_value_span (stod : Str → Except StdException Float) (p : Cli_Parser)
    (key : Str) (a : Argument) (pre vals rest : List Str)
    (ha : p.m_ArgsMap.at key = some a)
    (hv : ∀ t ∈ vals, is_flag t = false) (hr : span_end rest = true) :
    p.set_argument_value stod key pre.length (pre ++ (vals ++ rest)) =
      match a.emplace_parsed stod (span_text p.delim vals) p.delim with
      | .error e => .error e
      | .ok a' =>
        .ok (pre.length + vals.length, { p with m_ArgsMap := p.m_ArgsMap.assign key a' }) := by
  unfold Cli_Parser.set_argument_value
  simp only [ha, List.drop_left, collect_span p.delim vals rest pre.length [] hv hr,
    List.nil_append]

theorem getElem?_length_append_cons (pre : List Str) (x : Str) (l : List Str) :
    (pre ++ x :: l)[pre.length]? = some x := by
  induction pre with
  | nil => simp
  | cons y pre ih => simpa using ih

theorem ordered_loop_step (stod : Str → Except StdException Float) (p : Cli_Parser)
    (g : Str × List Str) (a : Argument) (keys : List Str) (pre rest : List Str)
    (ha : p.m_ArgsMap.at g.1 = some a)
    (hv : ∀ t ∈ g.2, is_flag t = false) (hr : span_end rest = true) :
    ordered_loop stod (g.1 :: keys) pre.length p (pre ++ (group_tokens g ++ rest)) =
      match a.emplace_parsed stod (span_text p.delim g.2) p.delim with
      | .error e => ⟨.threw e, pre.length + 1, p⟩
      | .ok a' =>
        ordered_loop stod keys (pre ++ group_tokens g).length
          { p with m_ArgsMap := p.m_ArgsMap.assign g.1 a' }
          ((pre ++ group_tokens g) ++ rest) := by
  have hset := set_argument_value_span stod p g.1 a (pre ++ [('-' :: g.1)]) g.2 rest ha hv hr
  have hargv : pre ++ (group_tokens g ++ rest) = (pre ++ [('-' :: g.1)]) ++ (g.2 ++ rest) := by
    simp [group_tokens]
  have hlen : (pre ++ [('-' :: g.1)]).length = pre.length + 1 := by simp
  rw [hlen] at hset
  rw [ordered_loop]
  have hlt : ¬ pre.length ≥ (pre ++ (group_tokens g ++ rest)).length := by
    simp [group_tokens]
  have hget : (pre ++ (group_tokens g ++ rest)).getD pre.length [] = '-' :: g.1 := by
    rw [List.getD_eq_getElem?_getD]
    simp only [group_tokens, List.cons_append, getElem?_length_append_cons, Option.getD_some]
  simp only [Cli_Parser.check_still_left, hlt, if_false, hget]
  simp only [is_flag, List.head?_cons, Bool.not_true, List.drop_one, List.tail_cons,
    decide_True, ne_eq, not_true_eq_false, if_false, Bool.false_eq_true]
  rw [hargv, hset]
  cases hE : a.emplace_parsed stod (span_text p.delim g.2) p.delim with
  | error e => rfl
  | ok a' =>
    simp only [group_tokens, List.length_append, List.length_cons, List.length_nil,
      List.append_assoc, List.cons_append, List.nil_append]
    rw [show pre.length + 1 + g.2.length = pre.length + (g.2.length + 1) by omega]

theorem mem_keys_of_at (m : ArgsMap) (key : Str) (a : Argument)
    (h : m.at key = some a) : key ∈ ArgsMap.keys m := by
  induction m with
  | nil => simp [ArgsMap.at] at h
  | cons e m ih =>
    obtain ⟨k0, b⟩ := e
    by_cases hk : k0 = key
    · subst hk
      exact List.mem_cons_self _ _
    · simp only [ArgsMap.at, hk, if_false] at h
      exact List.mem_cons_of_mem _ (ih h)

theorem ordered_loop_groups (stod : Str → Except StdException Float)
    (gs : List (Str × List Str)) :
    ∀ (pre : List Str) (p : Cli_Parser),
      (gs.map Prod.fst).Nodup →
      (∀ g ∈ gs, ∀ t ∈ g.2, is_flag t = false) →
      (∀ g ∈ gs, ∃ a a', p.m_ArgsMap.at g.1 = some a ∧
        a.emplace_parsed stod (span_text p.delim g.2) p.delim = .ok a') →
      (ordered_loop stod (gs.map Prod.fst) pre.length p (pre ++ groups_tokens gs)).outcome
          = .returned true ∧
      (ordered_loop stod (gs.map Prod.fst) pre.length p
          (pre ++ groups_tokens gs)).parser.delim = p.delim ∧
      (∀ g ∈ gs, ∃ a a', p.m_ArgsMap.at g.1 = some a ∧
        a.emplace_parsed stod (span_text p.delim g.2) p.delim = .ok a' ∧
        (ordered_loop stod (gs.map Prod.fst) pre.length p
          (pre ++ groups_tokens gs)).parser.m_ArgsMap.at g.1 = some a') ∧
      (∀ k, k ∉ gs.map Prod.fst →
        (ordered_loop stod (gs.map Prod.fst) pre.length p
          (pre ++ groups_tokens gs)).parser.m_ArgsMap.at k = p.m_ArgsMap.at k) := by
  induction gs with
  | nil =>
    intro pre p _ _ _
    simp [ordered_loop, groups_tokens]
  | cons g gs ih =>
    intro pre p hnd hv hc
    have hnd' : (gs.map Prod.fst).Nodup := (List.nodup_cons.mp hnd).2
    have hg1 : g.1 ∉ gs.map Prod.fst := (List.nodup_cons.mp hnd).1
    obtain ⟨a, a', ha, hE⟩ := hc g (List.mem_cons_self _ _)
    have hstep := ordered_loop_step stod p g a (gs.map Prod.fst) pre (groups_tokens gs) ha
      (hv g (List.mem_cons_self _ _)) (span_end_groups_tokens gs)
    rw [hE] at hstep
    simp only [List.map_cons, groups_tokens]
    rw [hstep]
    have hc' : ∀ g' ∈ gs, ∃ b b',
        ({ p with m_ArgsMap := p.m_ArgsMap.assign g.1 a' } : Cli_Parser).m_ArgsMap.at g'.1 = some b ∧
        b.emplace_parsed stod (span_text p.delim g'.2) p.delim = .ok b' := by
      intro g' hg'
      obtain ⟨b, b', hb, hbE⟩ := hc g' (List.mem_cons_of_mem _ hg')
      have hne : g'.1 ≠ g.1 := by
        intro e
        exact hg1 (e ▸ List.mem_map_of_mem Prod.fst hg')
      exact ⟨b, b', by simp only [at_assign_ne _ _ _ _ hne, hb], hbE⟩
    obtain ⟨h1, h2, h3, h4⟩ := ih (pre ++ group_tokens g)
      { p with m_ArgsMap := p.m_ArgsMap.assign g.1 a' } hnd'
      (fun g' hg' => hv g' (List.mem_cons_of_mem _ hg')) hc'
    refine ⟨h1, h2, ?_, ?_⟩
    · intro g' hg'
      rcases List.mem_cons.mp hg' with e | hg'
      · subst e
        refine ⟨a, a', ha, hE, ?_⟩
        rw [h4 g'.1 hg1]
        exact at_assign_self _ _ _ _ ha
      · obtain ⟨b, b', hb, hbE, hr⟩ := h3 g' hg'
        have hne : g'.1 ≠ g.1 := by
          intro e
          exact hg1 (e ▸ List.mem_map_of_mem Prod.fst hg')
        refine ⟨b, b', ?_, hbE, hr⟩
        simpa only [at_assign_ne _ _ _ _ hne] using hb
    · intro k hk
      have hk1 : k ≠ g.1 := fun e => hk (by simp [e])
      have hk2 : k ∉ gs.map Prod.fst := fun e => hk (List.mem_cons_of_mem _ e)
      rw [h4 k hk2]
      exact at_assign_ne _ _ _ _ hk1

theorem ordered_loop_wrong_key (stod : Str → Except StdException Float) (p : Cli_Parser)
    (argvKey key : Str) (keys pre rest : List Str) (h : argvKey ≠ key) :
    ordered_loop stod (key :: keys) pre.length p (pre ++ ('-' :: argvKey) :: rest) =
      ⟨.returned false, pre.length, { p with m_ErrorMsg := msg_wrong_key argvKey key }⟩ := by
  rw [ordered_loop]
  have hlt : ¬ pre.length ≥ (pre ++ ('-' :: argvKey) :: rest).length := by simp
  have hget : (pre ++ ('-' :: argvKey) :: rest).getD pre.length [] = '-' :: argvKey := by
    rw [List.getD_eq_getElem?_getD]
    simp only [getElem?_length_append_cons, Option.getD_some]
  simp only [Cli_Parser.check_still_left, hlt, if_false, hget]
  simp [is_flag, h]

theorem ordered_loop_mismatch (stod : Str → Except StdException Float) (keys : List Str) :
    ∀ (gs : List (Str × List Str)) (pre : List Str) (p : Cli_Parser),
      keys.length = gs.length →
      gs.map Prod.fst ≠ keys →
      (gs.map Prod.fst).Nodup →
      (∀ g ∈ gs, ∀ t ∈ g.2, is_flag t = false) →
      (∀ g ∈ gs, ∃ a a', p.m_ArgsMap.at g.1 = some a ∧
        a.emplace_parsed stod (span_text p.delim g.2) p.delim = .ok a') →
      (ordered_loop stod keys pre.length p (pre ++ groups_tokens gs)).outcome
          = .returned false ∧
      ∃ argvKey key, argvKey ≠ key ∧
        (ordered_loop stod keys pre.length p (pre ++ groups_tokens gs)).parser.m_ErrorMsg
          = msg_wrong_key argvKey key := by
  induction keys with
  | nil =>
    intro gs pre p hlen hne _ _ _
    cases gs with
    | nil => exact absurd rfl hne
    | cons g gs => simp at hlen
  | cons key keys ih =>
    intro gs pre p hlen hne hnd hv hc
    cases gs with
    | nil => simp at hlen
    | cons g gs =>
      by_cases hk : g.1 = key
      · subst hk
        have hg1 : g.1 ∉ gs.map Prod.fst := (List.nodup_cons.mp hnd).1
        obtain ⟨a, a', ha, hE⟩ := hc g (List.mem_cons_self _ _)
        have hstep := ordered_loop_step stod p g a keys pre (groups_tokens gs) ha
          (hv g (List.mem_cons_self _ _)) (span_end_groups_tokens gs)
        rw [hE] at hstep
        simp only [groups_tokens]
        rw [hstep]
        apply ih gs (pre ++ group_tokens g) _ (by simpa using hlen)
          (fun e => hne (by simp [e])) (List.nodup_cons.mp hnd).2
          (fun g' hg' => hv g' (List.mem_cons_of_mem _ hg'))
        intro g' hg'
        obtain ⟨b, b', hb, hbE⟩ := hc g' (List.mem_cons_of_mem _ hg')
        have hne' : g'.1 ≠ g.1 := by
          intro e
          exact hg1 (e ▸ List.mem_map_of_mem Prod.fst hg')
        exact ⟨b, b', by simp only [at_assign_ne _ _ _ _ hne', hb], hbE⟩
      · simp only [groups_tokens, group_tokens, List.cons_append]
        rw [ordered_loop_wrong_key stod p g.1 key keys pre _ hk]
        exact ⟨rfl, g.1, key, hk, rfl⟩

theorem unordered_loop_step (stod : Str → Except StdException Float) (p : Cli_Parser)
    (g : Str × List Str) (a : Argument) (fuel : Nat) (pre rest : List Str)
    (ha : p.m_ArgsMap.at g.1 = some a)
    (hv : ∀ t ∈ g.2, is_flag t = false) (hr : span_end rest = true)
    (hne : g.2 ++ rest ≠ []) :
    unordered_loop stod (fuel + 1) pre.length p (pre ++ (group_tokens g ++ rest)) =
      match a.emplace_parsed stod (span_text p.delim g.2) p.delim with
      | .error e => some ⟨.threw e, pre.length + 1, p⟩
      | .ok a' =>
        unordered_loop stod fuel ((pre ++ group_tokens g).length + 1)
          { p with m_ArgsMap := p.m_ArgsMap.assign g.1 a' }
          ((pre ++ group_tokens g) ++ rest) := by
  have hset := set_argument_value_span stod p g.1 a (pre ++ [('-' :: g.1)]) g.2 rest ha hv hr
  have hargv : pre ++ (group_tokens g ++ rest) = (pre ++ [('-' :: g.1)]) ++ (g.2 ++ rest) := by
    simp [group_tokens]
  have hlen : (pre ++ [('-' :: g.1)]).length = pre.length + 1 := by simp
  rw [hlen] at hset
  rw [unordered_loop]
  have hget : (pre ++ (group_tokens g ++ rest))[pre.length]? = some ('-' :: g.1) := by
    simp only [group_tokens, List.cons_append, getElem?_length_append_cons]
  have hlt : ¬ pre.length + 1 ≥ (pre ++ (group_tokens g ++ rest)).length := by
    have : 0 < (g.2 ++ rest).length := List.length_pos.mpr hne
    simp only [group_tokens, List.cons_append, List.length_append, List.length_cons] at this ⊢
    omega
  have hcont : p.m_ArgsMap.contains g.1 = true := by
    rw [contains_eq_isSome, ha]; rfl
  simp only [hget, is_flag, List.head?_cons, decide_True, if_true, List.drop_one,
    List.tail_cons, hcont, Bool.not_true, Bool.false_eq_true, if_false,
    Cli_Parser.check_still_left, hlt]
  rw [hargv, hset]
  cases hE : a.emplace_parsed stod (span_text p.delim g.2) p.delim with
  | error e => rfl
  | ok a' =>
    simp only [group_tokens, List.length_append, List.length_cons, List.length_nil,
      List.append_assoc, List.cons_append, List.nil_append]
    rw [show pre.length + 1 + g.2.length = pre.length + (g.2.length + 1) by omega]

theorem unordered_loop_last_flag (stod : Str → Except StdException Float) (p : Cli_Parser)
    (key : Str) (fuel : Nat) (pre : List Str) (hc : p.m_ArgsMap.contains key = true) :
    unordered_loop stod (fuel + 1) pre.length p (pre ++ [('-' :: key)]) =
      some ⟨.returned false, pre.length + 1,
        { p with m_ErrorMsg := msg_expected_value key }⟩ := by
  rw [unordered_loop]
  simp only [getElem?_length_append_cons]
  simp [is_flag, hc, Cli_Parser.check_still_left]

theorem unordered_loop_unknown_flag (stod : Str → Except StdException Float) (p : Cli_Parser)
    (key : Str) (fuel : Nat) (pre rest : List Str) (hc : p.m_ArgsMap.contains key = false) :
    unordered_loop stod (fuel + 1) pre.length p (pre ++ ('-' :: key) :: rest) =
      some ⟨.returned false, pre.length + 1,
        { p with m_ErrorMsg := msg_unexpected_key key }⟩ := by
  rw [unordered_loop]
  simp only [getElem?_length_append_cons]
  simp [is_flag, hc]

/-- The list `getlines` builds is the one the `getline` loop builds: nothing
when `getline` fails, else the extracted line followed by the lines of the
text left unread. -/
theorem getlines_eq_getline_loop (delim : Char) (s : Str) :
    getlines delim s =
      match getline delim s with
      | none => []
      | some (line, rest) => line :: getlines delim rest := by
  induction s with
  | nil => rfl
  | cons c cs ih =>
    rw [getlines, getline]
    by_cases hc : c = delim
    · simp only [hc, if_true]
    · simp only [hc, if_false]
      rw [ih]
      cases hg : getline delim cs with
      | none => simp [getlines]
      | some res =>
        obtain ⟨l, r⟩ := res
        rfl

theorem span_text_eq_join_with (delim : Char) (vals : List Str) (h : vals ≠ []) :
    span_text delim vals = join_with delim vals ++ [delim] := by
  induction vals with
  | nil => exact absurd rfl h
  | cons t rest ih =>
    cases rest with
    | nil => simp [span_text, join_with]
    | cons u rest =>
      rw [span_text, ih (by simp), join_with]
      simp

theorem getlines_line (delim : Char) (s rest : Str) (h : delim ∉ s) :
    getlines delim (s ++ delim :: rest) = s :: getlines delim rest := by
  induction s with
  | nil => simp [getlines]
  | cons c s ih =>
    have hc : c ≠ delim := fun e => h (e ▸ List.mem_cons_self _ _)
    have hs : delim ∉ s := fun e => h (List.mem_cons_of_mem _ e)
    rw [List.cons_append, getlines, if_neg hc, ih hs]

theorem getlines_last (delim : Char) (s : Str) (h : delim ∉ s) (hne : s ≠ []) :
    getlines delim s = [s] := by
  induction s with
  | nil => exact absurd rfl hne
  | cons c s ih =>
    have hc : c ≠ delim := fun e => h (e ▸ List.mem_cons_self _ _)
    have hs : delim ∉ s := fun e => h (List.mem_cons_of_mem _ e)
    cases s with
    | nil => simp [getlines, hc]
    | cons d s => rw [getlines, if_neg hc, ih hs (by simp)]

theorem getlines_span_text (delim : Char) (l : List Str) (h : ∀ s ∈ l, delim ∉ s) :
    getlines delim (span_text delim l) = l := by
  induction l with
  | nil => rfl
  | cons s l ih =>
    rw [span_text, getlines_line delim s _ (h s (List.mem_cons_self _ _)),
      ih (fun t ht => h t (List.mem_cons_of_mem _ ht))]

theorem getlines_join_with (delim : Char) (l : List Str) (h : ∀ s ∈ l, delim ∉ s)
    (hlast : l.getLast? ≠ some []) : getlines delim (join_with delim l) = l := by
  induction l with
  | nil => rfl
  | cons s l ih =>
    cases l with
    | nil =>
      have hs : s ≠ [] := by
        intro e
        apply hlast
        simp [e]
      simpa [join_with] using getlines_last delim s (h s (List.mem_cons_self _ _)) hs
    | cons t l =>
      rw [join_with, getlines_line delim s _ (h s (List.mem_cons_self _ _)),
        ih (fun u hu => h u (List.mem_cons_of_mem _ hu)) (by simpa using hlast)]

theorem set_argument_value_ok_inv (stod : Str → Except StdException Float) (p p' : Cli_Parser)
    (key : Str) (i i' : Nat) (argv : List Str)
    (h : p.set_argument_value stod key i argv = .ok (i', p')) :
    ∃ a a', p.m_ArgsMap.at key = some a ∧
      a.emplace_parsed stod (collect p.delim (argv.drop i) i []).2 p.delim = .ok a' ∧
      i' = (collect p.delim (argv.drop i) i []).1 ∧
      p' = { p with m_ArgsMap := p.m_ArgsMap.assign key a' } := by
  unfold Cli_Parser.set_argument_value at h
  cases hat : p.m_ArgsMap.at key with
  | none => simp [hat] at h
  | some a =>
    cases hE : a.emplace_parsed stod (collect p.delim (argv.drop i) i []).2 p.delim with
    | error e => simp [hat, hE] at h
    | ok a' =>
      simp only [hat, hE, Except.ok.injEq, Prod.mk.injEq] at h
      exact ⟨a, a', rfl, hE, h.1.symm, h.2.symm⟩

theorem set_argument_value_ok_ge (stod : Str → Except StdException Float) (p p' : Cli_Parser)
    (key : Str) (i i' : Nat) (argv : List Str)
    (h : p.set_argument_value stod key i argv = .ok (i', p')) : i ≤ i' := by
  obtain ⟨_, _, _, _, hi, _⟩ := set_argument_value_ok_inv stod p p' key i i' argv h
  rw [hi]
  exact collect_fst_ge _ _ _ _

theorem set_argument_value_take (stod : Str → Except StdException Float) (p p' : Cli_Parser)
    (key : Str) (i i' n : Nat) (argv : List Str)
    (h : p.set_argument_value stod key i argv = .ok (i', p')) (hn : i' ≤ n) :
    p.set_argument_value stod key i (argv.take n) = .ok (i', p') := by
  have hge := set_argument_value_ok_ge stod p p' key i i' argv h
  obtain ⟨a, a', hat, hE, hi, hp⟩ := set_argument_value_ok_inv stod p p' key i i' argv h
  have hc : collect p.delim (List.drop i (List.take n argv)) i [] =
      collect p.delim (List.drop i argv) i [] := by
    rw [List.drop_take]
    apply collect_take
    omega
  unfold Cli_Parser.set_argument_value
  simp only [hat, hc, hE, hi, hp]

theorem set_argument_value_map (stod : Str → Except StdException Float) (p p' : Cli_Parser)
    (key : Str) (i i' : Nat) (argv : List Str)
    (h : p.set_argument_value stod key i argv = .ok (i', p')) :
    p'.delim = p.delim ∧ p'.m_ErrorMsg = p.m_ErrorMsg := by
  obtain ⟨_, _, _, _, _, hp⟩ := set_argument_value_ok_inv stod p p' key i i' argv h
  subst hp
  exact ⟨rfl, rfl⟩

/-- Truncating the input at the failing token leaves the run of the unordered loop
before that token unchanged. -/
theorem unordered_loop_fail_take (stod : Str → Except StdException Float) (fuel : Nat) :
    ∀ (i : Nat) (p : Cli_Parser) (argv : List Str) (r : Run),
      unordered_loop stod fuel i p argv = some r → r.outcome = .returned false →
      i < r.i ∧ r.i ≤ argv.length ∧
      unordered_loop stod fuel i p (argv.take (r.i - 1)) =
        some ⟨.returned true, r.i - 1, { r.parser with m_ErrorMsg := p.m_ErrorMsg }⟩ := by
  induction fuel with
  | zero =>
    intro i p argv r h
    simp [unordered_loop] at h
  | succ fuel ih =>
    intro i p argv r h hout
    rw [unordered_loop] at h
    cases hget : argv[i]? with
    | none =>
      simp only [hget] at h
      cases h
      cases hout
    | some str =>
      have hi : i < argv.length := by
        by_contra hcon
        rw [List.getElem?_eq_none (Nat.le_of_not_lt hcon)] at hget
        cases hget
      simp only [hget] at h
      by_cases hflag : is_flag str = true
      · simp only [hflag, if_true] at h
        by_cases hcont : p.m_ArgsMap.contains (str.drop 1) = true
        · simp only [hcont, Bool.not_true, Bool.false_eq_true, if_false,
            Cli_Parser.check_still_left] at h
          by_cases hleft : i + 1 ≥ argv.length
          · simp only [hleft, if_true] at h
            cases h
            refine ⟨Nat.lt_succ_self i, hi, ?_⟩
            rw [unordered_loop]
            simp [List.getElem?_take_eq_none (Nat.le_refl i)]
          · simp only [hleft, if_false] at h
            cases hset : p.set_argument_value stod (str.drop 1) (i + 1) argv with
            | error e =>
              simp only [hset] at h
              cases h
              cases hout
            | ok res =>
              obtain ⟨i', p''⟩ := res
              simp only [hset] at h
              obtain ⟨h1, h2, h3⟩ := ih (i' + 1) p'' argv r h hout
              have hge := set_argument_value_ok_ge stod p p'' _ _ _ argv hset
              have hmsg := (set_argument_value_map stod p p'' _ _ _ argv hset).2
              refine ⟨by omega, h2, ?_⟩
              rw [unordered_loop]
              have hget' : (argv.take (r.i - 1))[i]? = some str := by
                rw [List.getElem?_take_of_lt (by omega), hget]
              have hleft' : ¬ i + 1 ≥ (argv.take (r.i - 1)).length := by
                rw [List.length_take]
                omega
              have hset' := set_argument_value_take stod p p'' _ _ _ (r.i - 1) argv hset
                (by omega)
              simp only [hget', hflag, if_true, hcont, Bool.not_true, Bool.false_eq_true,
                if_false, Cli_Parser.check_still_left, hleft', hset']
              rw [h3, hmsg]
        · simp only [hcont, Bool.not_false, if_true] at h
          cases h
          refine ⟨Nat.lt_succ_self i, hi, ?_⟩
          rw [unordered_loop]
          simp [List.getElem?_take_eq_none (Nat.le_refl i)]
      · simp only [hflag, if_false] at h
        obtain ⟨h1, h2, h3⟩ := ih (i + 1) p argv r h hout
        refine ⟨by omega, h2, ?_⟩
        rw [unordered_loop]
        have hget' : (argv.take (r.i - 1))[i]? = some str := by
          rw [List.getElem?_take_of_lt (by omega), hget]
        simp only [hget', hflag, if_false]
        exact h3

theorem unordered_loop_fuel_succ (stod : Str → Except StdException Float) (fuel : Nat) :
    ∀ (i : Nat) (p : Cli_Parser) (argv : List Str) (r : Run),
      unordered_loop stod fuel i p argv = some r →
      unordered_loop stod (fuel + 1) i p argv = some r := by
  induction fuel with
  | zero =>
    intro i p argv r h
    simp [unordered_loop] at h
  | succ fuel ih =>
    intro i p argv r h
    rw [unordered_loop] at h ⊢
    cases hget : argv[i]? with
    | none => simpa only [hget] using h
    | some str =>
      simp only [hget] at h ⊢
      by_cases hflag : is_flag str = true
      · simp only [hflag, if_true] at h ⊢
        by_cases hcont : p.m_ArgsMap.contains (str.drop 1) = true
        · simp only [hcont, Bool.not_true, Bool.false_eq_true, if_false,
            Cli_Parser.check_still_left] at h ⊢
          by_cases hleft : i + 1 ≥ argv.length
          · simpa only [hleft, if_true] using h
          · simp only [hleft, if_false] at h ⊢
            cases hset : p.set_argument_value stod (str.drop 1) (i + 1) argv with
            | error e => simpa only [hset] using h
            | ok res =>
              obtain ⟨i', p''⟩ := res
              simp only [hset] at h ⊢
              exact ih _ _ _ _ h
        · simpa only [hcont, Bool.not_false, if_true] using h
      · simp only [hflag, if_false] at h ⊢
        exact ih _ _ _ _ h

theorem unordered_loop_fuel_le (stod : Str → Except StdException Float) (fuel fuel' : Nat)
    (i : Nat) (p : Cli_Parser) (argv : List Str) (r : Run) (hle : fuel ≤ fuel')
    (h : unordered_loop stod fuel i p argv = some r) :
    unordered_loop stod fuel' i p argv = some r := by
  induction hle with
  | refl => exact h
  | step _ ih => exact unordered_loop_fuel_succ stod _ _ _ _ _ ih

theorem unordered_loop_total (stod : Str → Except StdException Float) (fuel : Nat) :
    ∀ (i : Nat) (p : Cli_Parser) (argv : List Str), argv.length ≤ fuel + i →
      ∃ r, unordered_loop stod (fuel + 1) i p argv = some r := by
  induction fuel with
  | zero =>
    intro i p argv h
    rw [unordered_loop, List.getElem?_eq_none (by omega)]
    exact ⟨_, rfl⟩
  | succ fuel ih =>
    intro i p argv h
    rw [unordered_loop]
    cases hget : argv[i]? with
    | none => exact ⟨_, rfl⟩
    | some str =>
      simp only []
      by_cases hflag : is_flag str = true
      · simp only [hflag, if_true]
        by_cases hcont : p.m_ArgsMap.contains (str.drop 1) = true
        · simp only [hcont, Bool.not_true, Bool.false_eq_true, if_false,
            Cli_Parser.check_still_left]
          by_cases hleft : i + 1 ≥ argv.length
          · simp only [hleft, if_true]
            exact ⟨_, rfl⟩
          · simp only [hleft, if_false]
            cases hset : p.set_argument_value stod (str.drop 1) (i + 1) argv with
            | error e => exact ⟨_, rfl⟩
            | ok res =>
              obtain ⟨i', p''⟩ := res
              have hge := set_argument_value_ok_ge stod p p'' _ _ _ argv hset
              exact ih _ _ _ (by omega)
        · simp only [hcont, Bool.not_false, if_true]
          exact ⟨_, rfl⟩
      · simp only [hflag, if_false]
        exact ih _ _ _ (by omega)

theorem unordered_parse_total (stod : Str → Except StdException Float) (p : Cli_Parser)
    (argv : List Str) : ∃ r, p.unordered_parse stod argv = some r :=
  unordered_loop_total stod argv.length 1 p argv (by omega)

theorem ordered_loop_fail_take (stod : Str → Except StdException Float) (keys : List Str) :
    ∀ (i : Nat) (p : Cli_Parser) (argv : List Str),
      (ordered_loop stod keys i p argv).outcome = .returned false →
      i ≤ (ordered_loop stod keys i p argv).i ∧
      (ordered_loop stod keys i p
          (argv.take (ordered_loop stod keys i p argv).i)).parser.m_ArgsMap =
        (ordered_loop stod keys i p argv).parser.m_ArgsMap := by
  induction keys with
  | nil =>
    intro i p argv h
    simp [ordered_loop] at h
  | cons key keys ih =>
    intro i p argv h
    have hstop :
        (ordered_loop stod (key :: keys) i p (argv.take i)).parser.m_ArgsMap = p.m_ArgsMap := by
      rw [ordered_loop]
      have : i ≥ (argv.take i).length := by
        rw [List.length_take]; omega
      simp only [Cli_Parser.check_still_left, this, if_true]
    rw [ordered_loop] at h ⊢
    simp only [Cli_Parser.check_still_left] at h ⊢
    by_cases hleft : i ≥ argv.length
    · simp only [hleft, if_true] at h ⊢
      exact ⟨Nat.le_refl i, hstop⟩
    · simp only [hleft, if_false] at h ⊢
      by_cases hflag : is_flag (argv.getD i []) = true
      · simp only [hflag, Bool.not_true, Bool.false_eq_true, if_false] at h ⊢
        by_cases hkey : (argv.getD i []).drop 1 = key
        · simp only [hkey, ne_eq, not_true_eq_false, if_false] at h ⊢
          cases hset : p.set_argument_value stod key (i + 1) argv with
          | error e => simp [hset] at h
          | ok res =>
            obtain ⟨i', p''⟩ := res
            simp only [hset] at h ⊢
            obtain ⟨h1, h2⟩ := ih i' p'' argv h
            have hge := set_argument_value_ok_ge stod p p'' _ _ _ argv hset
            refine ⟨by omega, ?_⟩
            generalize hj : (ordered_loop stod keys i' p'' argv).i = j at h1 h2 ⊢
            rw [ordered_loop]
            have hleft' : ¬ i ≥ (argv.take j).length := by
              rw [List.length_take]; omega
            have hget' : (argv.take j).getD i [] = argv.getD i [] := by
              simp only [List.getD_eq_getElem?_getD]
              rw [List.getElem?_take_of_lt (by omega)]
            have hset' := set_argument_value_take stod p p'' _ _ _ j argv hset h1
            simp only [Cli_Parser.check_still_left, hleft', if_false, hget', hflag,
              Bool.not_true, Bool.false_eq_true, hkey, ne_eq, not_true_eq_false, hset']
            exact h2
        · simp only [hkey, ne_eq, not_false_eq_true, if_true] at h ⊢
          exact ⟨Nat.le_refl i, hstop⟩
      · simp only [Bool.not_eq_true] at hflag
        simp only [hflag, Bool.not_false, if_true] at h ⊢
        exact ⟨Nat.le_refl i, hstop⟩

theorem collect_takeWhile (delim : Char) (l : List Str) (i : Nat) (s : Str) :
    collect delim l i s =
      (i + (l.takeWhile (fun t => !is_flag t)).length,
        s ++ span_text delim (l.takeWhile (fun t => !is_flag t))) := by
  induction l generalizing i s with
  | nil => simp [collect, span_text]
  | cons tok rest ih =>
    by_cases hf : is_flag tok = true
    · simp [collect, hf, span_text]
    · simp only [Bool.not_eq_true] at hf
      rw [collect, if_neg (by simp [hf]), ih]
      simp only [List.takeWhile_cons, hf, Bool.not_false, if_true, List.length_cons,
        span_text, List.append_assoc, List.singleton_append, Prod.mk.injEq, and_true]
      omega

theorem set_argument_value_eq (stod : Str → Except StdException Float) (p : Cli_Parser)
    (key : Str) (i : Nat) (argv : List Str) :
    p.set_argument_value stod key i argv =
      match p.m_ArgsMap.at key with
      | none => .error .out_of_range
      | some a =>
        match a.emplace_parsed stod (span_text p.delim (value_run argv i)) p.delim with
        | .error e => .error e
        | .ok a' =>
          .ok (i + (value_run argv i).length,
            { p with m_ArgsMap := p.m_ArgsMap.assign key a' }) := by
  unfold Cli_Parser.set_argument_value value_run
  cases p.m_ArgsMap.at key with
  | none => rfl
  | some a =>
    simp only [collect_takeWhile, List.nil_append]

theorem value_run_append (pre suf : List Str) (k : Nat) :
    value_run (pre ++ suf) (pre.length + k) = value_run suf k := by
  unfold value_run
  rw [List.drop_append]

theorem getElem?_append_add (pre suf : List Str) (k : Nat) :
    (pre ++ suf)[pre.length + k]? = suf[k]? := by
  rw [List.getElem?_append_right (Nat.le_add_right _ _), Nat.add_sub_cancel_left]

theorem unordered_loop_shift (stod : Str → Except StdException Float)
    (pre1 pre2 suf : List Str) (fuel : Nat) :
    ∀ (d : Nat) (p : Cli_Parser),
      (unordered_loop stod fuel (pre1.length + d) p (pre1 ++ suf)).map
          (fun r => (r.outcome, r.parser)) =
        (unordered_loop stod fuel (pre2.length + d) p (pre2 ++ suf)).map
          (fun r => (r.outcome, r.parser)) := by
  induction fuel with
  | zero => intro d p; rfl
  | succ fuel ih =>
    intro d p
    rw [unordered_loop, unordered_loop]
    simp only [getElem?_append_add]
    cases hget : suf[d]? with
    | none => rfl
    | some str =>
      simp only []
      by_cases hflag : is_flag str = true
      · simp only [hflag, if_true]
        by_cases hcont : p.m_ArgsMap.contains (str.drop 1) = true
        · simp only [hcont, Bool.not_true, Bool.false_eq_true, if_false,
            Cli_Parser.check_still_left, List.length_append]
          by_cases hleft : d + 1 ≥ suf.length
          · have h1 : pre1.length + d + 1 ≥ pre1.length + suf.length := by omega
            have h2 : pre2.length + d + 1 ≥ pre2.length + suf.length := by omega
            simp only [h1, h2, if_true]
            rfl
          · have h1 : ¬ pre1.length + d + 1 ≥ pre1.length + suf.length := by omega
            have h2 : ¬ pre2.length + d + 1 ≥ pre2.length + suf.length := by omega
            simp only [h1, h2, if_false]
            rw [set_argument_value_eq, set_argument_value_eq]
            rw [Nat.add_assoc pre1.length, Nat.add_assoc pre2.length,
              value_run_append, value_run_append]
            cases p.m_ArgsMap.at (str.drop 1) with
            | none => rfl
            | some a =>
              simp only []
              cases a.emplace_parsed stod (span_text p.delim (value_run suf (d + 1)))
                  p.delim with
              | error e => rfl
              | ok a' =>
                simp only []
                have := ih (d + 1 + (value_run suf (d + 1)).length + 1)
                  { p with m_ArgsMap := p.m_ArgsMap.assign (str.drop 1) a' }
                simpa only [Nat.add_assoc] using this
        · simp only [hcont, Bool.not_false, if_true]
          rfl
      · simp only [hflag, if_false]
        have := ih (d + 1) p
        simpa only [Nat.add_assoc] using this

theorem unordered_loop_skip (stod : Str → Except StdException Float) (ys : List Str) :
    ∀ (pre rest : List Str) (fuel : Nat) (p : Cli_Parser),
      (∀ t ∈ ys, is_flag t = false) →
      unordered_loop stod (fuel + ys.length) pre.length p (pre ++ (ys ++ rest)) =
        unordered_loop stod fuel (pre ++ ys).length p ((pre ++ ys) ++ rest) := by
  induction ys with
  | nil => intro pre rest fuel p _; simp
  | cons y ys ih =>
    intro pre rest fuel p h
    have hy : is_flag y = false := h y (List.mem_cons_self _ _)
    rw [List.length_cons, ← Nat.add_assoc, unordered_loop]
    simp only [List.cons_append, getElem?_length_append_cons, hy, Bool.false_eq_true,
      if_false]
    have := ih (pre ++ [y]) rest fuel p (fun t ht => h t (List.mem_cons_of_mem _ ht))
    simpa only [List.length_append, List.length_cons, List.length_nil, List.append_assoc,
      List.cons_append, List.nil_append, Nat.zero_add] using this

theorem str_less_asymm (a : Str) : ∀ (b : Str), str_less a b = true → str_less b a = false := by
  induction a with
  | nil =>
    intro b h
    cases b with
    | nil => rfl
    | cons y bs => rfl
  | cons x as ih =>
    intro b h
    cases b with
    | nil => simp [str_less] at h
    | cons y bs =>
      rw [str_less] at h ⊢
      by_cases hxy : x < y
      · have hyx : ¬ y < x := lt_asymm hxy
        simp [hxy, hyx]
      · by_cases hyx : y < x
        · simp [hxy, hyx] at h
        · simp only [hxy, hyx, if_false] at h ⊢
          exact ih bs h

theorem str_less_trans (a : Str) :
    ∀ (b c : Str), str_less a b = true → str_less b c = true → str_less a c = true := by
  induction a with
  | nil =>
    intro b c hab hbc
    cases b with
    | nil => simp [str_less] at hab
    | cons y bs =>
      cases c with
      | nil => simp [str_less] at hbc
      | cons z cs => rfl
  | cons x as ih =>
    intro b c hab hbc
    cases b with
    | nil => simp [str_less] at hab
    | cons y bs =>
      cases c with
      | nil => simp [str_less] at hbc
      | cons z cs =>
        rw [str_less] at hab hbc ⊢
        by_cases hxy : x < y
        · by_cases hyz : y < z
          · simp [lt_trans hxy hyz]
          · by_cases hzy : z < y
            · simp [hyz, hzy] at hbc
            · have hyz' : y = z := le_antisymm (not_lt.mp hzy) (not_lt.mp hyz)
              subst hyz'
              simp [hxy]
        · by_cases hyx : y < x
          · simp [hxy, hyx] at hab
          · have hxy' : x = y := le_antisymm (not_lt.mp hyx) (not_lt.mp hxy)
            subst hxy'
            simp only [hxy, if_false] at hab
            by_cases hxz : x < z
            · simp [hxz]
            · by_cases hzx : z < x
              · simp [hxz, hzx] at hbc
              · simp only [hxz, hzx, if_false] at hbc ⊢
                exact ih bs cs hab hbc

theorem str_less_total (a : Str) :
    ∀ (b : Str), a ≠ b → str_less a b = false → str_less b a = true := by
  induction a with
  | nil =>
    intro b hne h
    cases b with
    | nil => exact absurd rfl hne
    | cons y bs => simp [str_less] at h
  | cons x as ih =>
    intro b hne h
    cases b with
    | nil => rfl
    | cons y bs =>
      rw [str_less] at h ⊢
      by_cases hxy : x < y
      · simp [hxy] at h
      · by_cases hyx : y < x
        · simp [hyx]
        · have hxy' : x = y := le_antisymm (not_lt.mp hyx) (not_lt.mp hxy)
          subst hxy'
          simp only [hxy, if_false] at h ⊢
          exact ih bs (fun e => hne (by rw [e])) h

theorem emplace_keys_mem (m : ArgsMap) (key : Str) (a : Argument) (k : Str)
    (hk : k ∈ ArgsMap.keys (m.emplace key a)) : k = key ∨ k ∈ ArgsMap.keys m := by
  induction m with
  | nil =>
    simp only [ArgsMap.emplace, ArgsMap.keys, List.map_cons, List.map_nil,
      List.mem_singleton] at hk
    exact Or.inl hk
  | cons e m ih =>
    obtain ⟨k0, b⟩ := e
    rw [ArgsMap.emplace] at hk
    by_cases h0 : k0 = key
    · simp only [h0, if_true] at hk
      exact Or.inr (h0 ▸ hk)
    · simp only [h0, if_false] at hk
      by_cases hl : str_less key k0 = true
      · simp only [hl, if_true] at hk
        rcases List.mem_cons.mp hk with e | hk
        · exact Or.inl e
        · exact Or.inr hk
      · simp only [hl, if_false] at hk
        rcases List.mem_cons.mp hk with e | hk
        · exact Or.inr (e ▸ List.mem_cons_self _ _)
        · rcases ih hk with e | hk
          · exact Or.inl e
          · exact Or.inr (List.mem_cons_of_mem _ hk)

/-- The method `std::map::emplace` keeps the keys strictly ascending. -/
theorem emplace_ordered (m : ArgsMap) (key : Str) (a : Argument) (h : m.ordered) :
    (m.emplace key a).ordered := by
  induction m with
  | nil => simp [ArgsMap.emplace, ArgsMap.ordered, ArgsMap.keys]
  | cons e m ih =>
    obtain ⟨k0, b⟩ := e
    have h' : (k0 :: ArgsMap.keys m).Pairwise (fun a b => str_less a b = true) := h
    obtain ⟨hhead, htail⟩ := List.pairwise_cons.mp h'
    rw [ArgsMap.emplace]
    by_cases h0 : k0 = key
    · simp only [h0, if_true]
      exact h0 ▸ h
    · simp only [h0, if_false]
      by_cases hl : str_less key k0 = true
      · simp only [hl, if_true]
        show (key :: k0 :: ArgsMap.keys m).Pairwise (fun a b => str_less a b = true)
        refine List.pairwise_cons.mpr ⟨?_, h'⟩
        intro k hk
        rcases List.mem_cons.mp hk with e | hk
        · exact e ▸ hl
        · exact str_less_trans _ _ _ hl (hhead k hk)
      · simp only [hl, if_false]
        show (k0 :: ArgsMap.keys (ArgsMap.emplace m key a)).Pairwise
          (fun a b => str_less a b = true)
        refine List.pairwise_cons.mpr ⟨?_, ih htail⟩
        intro k hk
        rcases emplace_keys_mem m key a k hk with e | hk
        · rw [e]
          exact str_less_total key k0 (fun e => h0 e.symm) (by simpa using hl)
        · exact hhead k hk

/-- The method `Cli_Parser::add` keeps the invariant of the map. -/
theorem add_ordered (p : Cli_Parser) (flag help_str : Str) (value : opt_var_arg)
    (h : p.m_ArgsMap.ordered) : (p.add flag help_str value).m_ArgsMap.ordered :=
  emplace_ordered _ _ _ h

theorem emplace_of_at (m : ArgsMap) (key : Str) (a a0 : Argument) (h : m.ordered)
    (hat : m.at key = some a0) : m.emplace key a = m := by
  induction m with
  | nil => simp [ArgsMap.at] at hat
  | cons e m ih =>
    obtain ⟨k0, b⟩ := e
    have h' : (k0 :: ArgsMap.keys m).Pairwise (fun a b => str_less a b = true) := h
    obtain ⟨hhead, htail⟩ := List.pairwise_cons.mp h'
    rw [ArgsMap.emplace]
    by_cases h0 : k0 = key
    · simp only [h0, if_true]
    · simp only [ArgsMap.at, h0, if_false] at hat
      have hmem : key ∈ ArgsMap.keys m := mem_keys_of_at m key a0 hat
      have hl : str_less key k0 = false := str_less_asymm k0 key (hhead key hmem)
      simp only [h0, if_false, hl, Bool.false_eq_true]
      rw [ih htail hat]

theorem drop_length_takeWhile (f : Str → Bool) (l : List Str) :
    l.drop (l.takeWhile f).length = l.dropWhile f := by
  induction l with
  | nil => rfl
  | cons x l ih =>
    by_cases hx : f x = true
    · simp [List.takeWhile_cons, List.dropWhile_cons, hx, ih]
    · simp [List.takeWhile_cons, List.dropWhile_cons, hx]

theorem span_end_dropWhile (l : List Str) :
    span_end (l.dropWhile (fun t => !is_flag t)) = true := by
  induction l with
  | nil => rfl
  | cons x l ih =>
    by_cases hx : is_flag x = true
    · simp [List.dropWhile_cons, hx, span_end]
    · simp only [Bool.not_eq_true] at hx
      simpa [List.dropWhile_cons, hx] using ih

/-! ## The claims -/

/-- C1 (evaluation at the failing input): in unordered mode, with the registry
{name: Text, age: Integer}, the input `-name John Smith -age 30` makes `parse`
return `true`, stores the text of the first group under `name`, and leaves
`age` without value: the token `-age` is stepped over by the loop increment
that follows `set_argument_value`. -/
theorem C1_unordered_second_group_skipped (stod : Str → Except StdException Float) :
    ((example_cli false).parse stod
        ["prog".toList, "-name".toList, "John".toList, "Smith".toList,
          "-age".toList, "30".toList]).map
      (fun r => (r.outcome, r.parser.stored "name".toList, r.parser.stored "age".toList))
    = some (.returned true, some (.string (some "John Smith ".toList)),
        some (.long none)) := by
  rfl

/-- C2 (evaluation at the failing input): with Integer declarations `a` and
`b` in unordered mode, `-a 1 -b 2` stores 1 under `a` and nothing under `b`,
while the permuted input `-b 2 -a 1` stores 2 under `b` and nothing under `a`:
the group that follows a value span is stepped over, so the stored values
depend on the order of the groups. -/
theorem C2_unordered_permuted_groups_differ :
    (example_ab.parse stod_example
        ["prog".toList, "-a".toList, "1".toList, "-b".toList, "2".toList]).map
      (fun r => (r.outcome, r.parser.stored "a".toList, r.parser.stored "b".toList))
    = some (.returned true, some (.long (some 1)), some (.long none)) ∧
    (example_ab.parse stod_example
        ["prog".toList, "-b".toList, "2".toList, "-a".toList, "1".toList]).map
      (fun r => (r.outcome, r.parser.stored "a".toList, r.parser.stored "b".toList))
    = some (.returned true, some (.long none), some (.long (some 2))) :=
  ⟨rfl, rfl⟩

/-- C3 (as amended): in ordered mode, when the flag-value groups are all
registered and valid and their flags are the registered keys in an order other
than the ascending key order in which `ordered_parse` visits the map, `parse`
returns `false` with the wrong-key message. -/
theorem C3_ordered_parse_out_of_order (stod : Str → Except StdException Float)
    (p : Cli_Parser) (prog : Str) (gs : List (Str × List Str))
    (hmode : p.m_OrderMaters = true)
    (hord : p.m_ArgsMap.ordered)
    (hperm : (gs.map Prod.fst).Perm p.m_ArgsMap.keys)
    (hne : gs.map Prod.fst ≠ p.m_ArgsMap.keys)
    (hvals : ∀ g ∈ gs, g.2 ≠ [] ∧ ∀ t ∈ g.2, is_flag t = false)
    (hcoerce : ∀ g ∈ gs, ∃ a a', p.m_ArgsMap.at g.1 = some a ∧
      a.emplace_parsed stod (span_text p.delim g.2) p.delim = .ok a') :
    ∃ r, p.parse stod (prog :: groups_tokens gs) = some r ∧
      r.outcome = .returned false ∧
      ∃ argvKey key, argvKey ≠ key ∧ r.parser.m_ErrorMsg = msg_wrong_key argvKey key := by
  have hnd : (gs.map Prod.fst).Nodup := hperm.nodup_iff.mpr (ordered_keys_nodup _ hord)
  have hlen : (ArgsMap.keys p.m_ArgsMap).length = gs.length := by
    rw [← hperm.length_eq, List.length_map]
  obtain ⟨h1, h2⟩ := ordered_loop_mismatch stod (ArgsMap.keys p.m_ArgsMap) gs [prog] p hlen hne hnd
    (fun g hg => (hvals g hg).2) hcoerce
  refine ⟨p.ordered_parse stod (prog :: groups_tokens gs), ?_, ?_, ?_⟩
  · simp [Cli_Parser.parse, hmode]
  · simpa [Cli_Parser.ordered_parse] using h1
  · simpa [Cli_Parser.ordered_parse] using h2

/-- C3 (witness): the registry {name: Text, age: Integer} in ordered mode and
the input `-name John -age 30`, whose groups are in registration order but not
in the ascending key order of the map. -/
theorem C3_witness :
    ∃ r, (example_cli true).parse stod_example
        ("prog".toList :: groups_tokens
          [("name".toList, ["John".toList]), ("age".toList, ["30".toList])]) = some r ∧
      r.outcome = .returned false ∧
      ∃ argvKey key, argvKey ≠ key ∧ r.parser.m_ErrorMsg = msg_wrong_key argvKey key :=
  C3_ordered_parse_out_of_order stod_example (example_cli true) "prog".toList
    [("name".toList, ["John".toList]), ("age".toList, ["30".toList])]
    rfl (by unfold ArgsMap.ordered; decide) (List.Perm.swap _ _ _) (by decide) (by decide)
    (by
      intro g hg
      simp only [List.mem_cons, List.mem_singleton, List.not_mem_nil, or_false] at hg
      rcases hg with rfl | rfl
      · exact ⟨_, _, rfl, rfl⟩
      · exact ⟨_, _, rfl, rfl⟩)

/-- C3 (counterexample): with `name` registered before `age`, the map is
visited in the order `age`, `name`, and in ordered mode the input
`-age 30 -name John`, whose groups are not in registration order, makes `parse`
return `true`. -/
theorem C3_counterexample :
    (example_cli true).m_ArgsMap.keys = ["age".toList, "name".toList] ∧
    ((example_cli true).parse stod_example
        ["prog".toList, "-age".toList, "30".toList, "-name".toList, "John".toList]).map
      (fun r => (r.outcome, r.parser.stored "age".toList, r.parser.stored "name".toList))
    = some (.returned true, some (.long (some 30)), some (.string (some "John ".toList))) :=
  ⟨rfl, rfl⟩

/-- C4: in ordered mode, when the token vector supplies, for every declaration
in the order in which `ordered_parse` visits the map, the token `-key`
followed by at least one non-flag token and the collected text coerces to the
declaration's type, `parse` returns `true`, every group's declaration holds
the coerced value, and every registered declaration has a value of the
alternative it was registered with. -/
theorem C4_ordered_parse_success (stod : Str → Except StdException Float)
    (p : Cli_Parser) (prog : Str) (gs : List (Str × List Str))
    (hmode : p.m_OrderMaters = true)
    (hord : p.m_ArgsMap.ordered)
    (hkeys : gs.map Prod.fst = p.m_ArgsMap.keys)
    (hvals : ∀ g ∈ gs, g.2 ≠ [] ∧ ∀ t ∈ g.2, is_flag t = false)
    (hcoerce : ∀ g ∈ gs, ∃ a a', p.m_ArgsMap.at g.1 = some a ∧
      a.emplace_parsed stod (span_text p.delim g.2) p.delim = .ok a') :
    ∃ r, p.parse stod (prog :: groups_tokens gs) = some r ∧
      r.outcome = .returned true ∧
      (∀ g ∈ gs, ∃ a a', p.m_ArgsMap.at g.1 = some a ∧
        a.emplace_parsed stod (span_text p.delim g.2) p.delim = .ok a' ∧
        r.parser.m_ArgsMap.at g.1 = some a') ∧
      (∀ k a, p.m_ArgsMap.at k = some a →
        ∃ a', r.parser.m_ArgsMap.at k = some a' ∧
          a'.value.has_value = true ∧ a'.value.index = a.value.index) := by
  have hnd : (gs.map Prod.fst).Nodup := hkeys ▸ ordered_keys_nodup _ hord
  obtain ⟨h1, _, h3, _⟩ := ordered_loop_groups stod gs [prog] p hnd
    (fun g hg => (hvals g hg).2) hcoerce
  refine ⟨p.ordered_parse stod (prog :: groups_tokens gs), ?_, ?_, ?_, ?_⟩
  · simp [Cli_Parser.parse, hmode]
  · simpa [Cli_Parser.ordered_parse, ← hkeys] using h1
  · simpa [Cli_Parser.ordered_parse, ← hkeys] using h3
  · intro k a hka
    have hk : k ∈ gs.map Prod.fst := by
      rw [hkeys]
      exact mem_keys_of_at _ _ _ hka
    obtain ⟨g, hg, rfl⟩ := List.mem_map.mp hk
    obtain ⟨b, b', hb, hE, hr⟩ := h3 g hg
    have hab : b = a := Option.some.inj (hb.symm.trans hka)
    subst hab
    obtain ⟨hv1, hv2, _⟩ := emplace_parsed_ok_value stod b b' _ _ hE
    refine ⟨b', ?_, hv1, hv2⟩
    simpa [Cli_Parser.ordered_parse, ← hkeys] using hr

/-- C4 (witness): the registry {name: Text, age: Integer} in ordered mode and
the input `-age 30 -name John Smith`, whose groups follow the order in which
the map is visited. -/
theorem C4_witness :
    ∃ r, (example_cli true).parse stod_example
        ("prog".toList :: groups_tokens
          [("age".toList, ["30".toList]), ("name".toList, ["John".toList, "Smith".toList])])
        = some r ∧
      r.outcome = .returned true ∧
      (∀ g ∈ [("age".toList, ["30".toList]), ("name".toList, ["John".toList, "Smith".toList])],
        ∃ a a', (example_cli true).m_ArgsMap.at g.1 = some a ∧
        a.emplace_parsed stod_example (span_text (example_cli true).delim g.2)
          (example_cli true).delim = .ok a' ∧
        r.parser.m_ArgsMap.at g.1 = some a') ∧
      (∀ k a, (example_cli true).m_ArgsMap.at k = some a →
        ∃ a', r.parser.m_ArgsMap.at k = some a' ∧
          a'.value.has_value = true ∧ a'.value.index = a.value.index) :=
  C4_ordered_parse_success stod_example (example_cli true) "prog".toList
    [("age".toList, ["30".toList]), ("name".toList, ["John".toList, "Smith".toList])]
    rfl (by unfold ArgsMap.ordered; decide) rfl (by decide)
    (by
      intro g hg
      simp only [List.mem_cons, List.mem_singleton, List.not_mem_nil, or_false] at hg
      rcases hg with rfl | rfl
      · exact ⟨_, _, rfl, rfl⟩
      · exact ⟨_, _, rfl, rfl⟩)

/-- C5 (evaluation at the failing input): in unordered mode, with only `name`
and `age` registered, the input `-name x -zzz 1` makes `parse` return `true`
with no error message, although `zzz` is not registered: the token `-zzz`
follows a value span and is stepped over. -/
theorem C5_unordered_unknown_flag_skipped :
    (example_cli false).m_ArgsMap.contains "zzz".toList = false ∧
    ((example_cli false).parse stod_example
        ["prog".toList, "-name".toList, "x".toList, "-zzz".toList, "1".toList]).map
      (fun r => (r.outcome, r.parser.m_ErrorMsg))
    = some (.returned true, []) :=
  ⟨rfl, rfl⟩

/-- C6 (as amended): when the loop of `unordered_parse` stands on a registered
flag token that is the last token of the input, `parse` returns `false` with
the message of `check_still_left` for that key and stores nothing; and when
the token after a flag is a flag-prefix token, `set_argument_value` collects
no token and hands the empty text to the coercion, raising no failure of its
own. -/
theorem C6_missing_value (stod : Str → Except StdException Float) (p : Cli_Parser)
    (key : Str) (a : Argument) (fuel : Nat) (pre : List Str) (tok : Str) (rest : List Str)
    (ha : p.m_ArgsMap.at key = some a) (htok : is_flag tok = true) :
    unordered_loop stod (fuel + 1) pre.length p (pre ++ [('-' :: key)]) =
      some ⟨.returned false, pre.length + 1,
        { p with m_ErrorMsg := msg_expected_value key }⟩ ∧
    p.set_argument_value stod key (pre.length + 1) (pre ++ ('-' :: key) :: tok :: rest) =
      match a.emplace_parsed stod [] p.delim with
      | .error e => .error e
      | .ok a' => .ok (pre.length + 1, { p with m_ArgsMap := p.m_ArgsMap.assign key a' }) := by
  constructor
  · exact unordered_loop_last_flag stod p key fuel pre (by rw [contains_eq_isSome, ha]; rfl)
  · have h := set_argument_value_span stod p key a (pre ++ [('-' :: key)]) [] (tok :: rest) ha
      (by simp) (by simpa [span_end] using htok)
    simpa [span_text] using h

/-- C6 (witness): `parse` in unordered mode on `prog -name`, and
`set_argument_value` for `name` in `prog -name -age 30`. -/
theorem C6_witness :
    (example_cli false).parse stod_example ["prog".toList, "-name".toList] =
      some ⟨.returned false, 2,
        { example_cli false with m_ErrorMsg := msg_expected_value "name".toList }⟩ ∧
    (example_cli false).set_argument_value stod_example "name".toList 2
        ["prog".toList, "-name".toList, "-age".toList, "30".toList] =
      match (⟨"name".toList, [], .string none⟩ : Argument).emplace_parsed stod_example []
          (example_cli false).delim with
      | .error e => .error e
      | .ok a' =>
        .ok (2, { example_cli false with
          m_ArgsMap := (example_cli false).m_ArgsMap.assign "name".toList a' }) :=
  C6_missing_value stod_example (example_cli false) "name".toList
    ⟨"name".toList, [], .string none⟩ 2 ["prog".toList] "-age".toList ["30".toList] rfl rfl

/-- C6 (counterexample): in unordered mode `-name -age 30` makes `parse` return
`true` and stores the empty string under `name`; in ordered mode
`-age 30 -name`, where the input ends right after `-name`, does the same. -/
theorem C6_counterexample :
    ((example_cli false).parse stod_example
        ["prog".toList, "-name".toList, "-age".toList, "30".toList]).map
      (fun r => (r.outcome, r.parser.stored "name".toList))
    = some (.returned true, some (.string (some []))) ∧
    ((example_cli true).parse stod_example
        ["prog".toList, "-age".toList, "30".toList, "-name".toList]).map
      (fun r => (r.outcome, r.parser.stored "name".toList))
    = some (.returned true, some (.string (some []))) :=
  ⟨rfl, rfl⟩

/-- C7 (as amended): when the loop of either strategy stands on the flag token
of an Integer or Float declaration and the text collected from the value
tokens makes `std::stol` (respectively `std::stod`) throw `e`, no `false` is
returned: the exception `e` leaves `parse`, and the parser object is left as it
was, so no value is stored for the declaration and no message is set. -/
theorem C7_coercion_failure_throws (stod : Str → Except StdException Float)
    (p : Cli_Parser) (g : Str × List Str) (a : Argument) (e : StdException)
    (fuel : Nat) (keys pre rest : List Str)
    (ha : p.m_ArgsMap.at g.1 = some a)
    (hne : g.2 ≠ [])
    (hv : ∀ t ∈ g.2, is_flag t = false) (hr : span_end rest = true)
    (hbad : (∃ v, a.value = .long v ∧ stol (span_text p.delim g.2) = .error e) ∨
      (∃ v, a.value = .double v ∧ stod (span_text p.delim g.2) = .error e)) :
    unordered_loop stod (fuel + 1) pre.length p (pre ++ (group_tokens g ++ rest)) =
      some ⟨.threw e, pre.length + 1, p⟩ ∧
    ordered_loop stod (g.1 :: keys) pre.length p (pre ++ (group_tokens g ++ rest)) =
      ⟨.threw e, pre.length + 1, p⟩ := by
  have hE : a.emplace_parsed stod (span_text p.delim g.2) p.delim = .error e := by
    rcases hbad with ⟨v, hv1, hv2⟩ | ⟨v, hv1, hv2⟩
    · simp [Argument.emplace_parsed, hv1, parse_value_long, hv2]
    · simp [Argument.emplace_parsed, hv1, parse_value_double, hv2]
  constructor
  · rw [unordered_loop_step stod p g a fuel pre rest ha hv hr (by simp [hne]), hE]
  · rw [ordered_loop_step stod p g a keys pre rest ha hv hr, hE]

/-- C7 (witness): the group `-age abc` for the Integer declaration `age`, in
`parse` on `prog -age abc` in unordered and in ordered mode. -/
theorem C7_witness :
    (example_cli false).parse stod_example ["prog".toList, "-age".toList, "abc".toList] =
      some ⟨.threw .invalid_argument, 2, example_cli false⟩ ∧
    (example_cli true).parse stod_example ["prog".toList, "-age".toList, "abc".toList] =
      some ⟨.threw .invalid_argument, 2, example_cli true⟩ :=
  ⟨(C7_coercion_failure_throws stod_example (example_cli false)
      ("age".toList, ["abc".toList]) ⟨"age".toList, [], .long none⟩ .invalid_argument
      3 ["name".toList] ["prog".toList] [] rfl (by decide) (by decide) rfl
      (Or.inl ⟨none, rfl, rfl⟩)).1,
    congrArg some (C7_coercion_failure_throws stod_example (example_cli true)
      ("age".toList, ["abc".toList]) ⟨"age".toList, [], .long none⟩ .invalid_argument
      3 ["name".toList] ["prog".toList] [] rfl (by decide) (by decide) rfl
      (Or.inl ⟨none, rfl, rfl⟩)).2⟩

/-- C7 (counterexample): for the Integer declaration `age`, the input
`-age abc` does not make `parse` return `false` in either mode: the outcome is
the exception `std::invalid_argument`, and the error message stays empty. -/
theorem C7_counterexample :
    ((example_cli false).parse stod_example
        ["prog".toList, "-age".toList, "abc".toList]).map
      (fun r => (r.outcome, r.parser.m_ErrorMsg, r.parser.stored "age".toList))
    = some (.threw .invalid_argument, [], some (.long none)) ∧
    ((example_cli true).parse stod_example
        ["prog".toList, "-age".toList, "abc".toList]).map
      (fun r => (r.outcome, r.parser.m_ErrorMsg, r.parser.stored "age".toList))
    = some (.threw .invalid_argument, [], some (.long none)) :=
  ⟨rfl, rfl⟩

/-- C8 (as amended): for a Text declaration matched with the value tokens
t1..tn (n >= 1), `set_argument_value` stores t1..tn joined by single
delimiter characters and followed by one more delimiter: there is no leading
delimiter, and the trailing one is not trimmed. -/
theorem C8_text_keeps_trailing_delimiter (stod : Str → Except StdException Float)
    (p : Cli_Parser) (key : Str) (a : Argument) (v : Option Str)
    (pre vals rest : List Str)
    (ha : p.m_ArgsMap.at key = some a) (htext : a.value = .string v)
    (hne : vals ≠ [])
    (hv : ∀ t ∈ vals, is_flag t = false) (hr : span_end rest = true) :
    ∃ p', p.set_argument_value stod key pre.length (pre ++ (vals ++ rest)) =
        .ok (pre.length + vals.length, p') ∧
      p'.stored key = some (.string (some (join_with p.delim vals ++ [p.delim]))) := by
  have h := set_argument_value_span stod p key a pre vals rest ha hv hr
  have hE : a.emplace_parsed stod (span_text p.delim vals) p.delim =
      .ok { a with value := .string (some (span_text p.delim vals)) } := by
    simp [Argument.emplace_parsed, htext, parse_value_string]
  rw [hE] at h
  refine ⟨_, h, ?_⟩
  simp only [Cli_Parser.stored, at_assign_self _ _ _ _ ha, Option.map_some',
    span_text_eq_join_with p.delim vals hne]

/-- C8 (witness): `John Smith` collected for the Text declaration `name`. -/
theorem C8_witness :
    ∃ p', (example_cli false).set_argument_value stod_example "name".toList
        ["prog".toList, "-name".toList].length
        (["prog".toList, "-name".toList] ++ (["John".toList, "Smith".toList] ++ [])) =
        .ok (["prog".toList, "-name".toList].length + ["John".toList, "Smith".toList].length,
          p') ∧
      p'.stored "name".toList = some (.string (some
        (join_with (example_cli false).delim ["John".toList, "Smith".toList]
          ++ [(example_cli false).delim]))) :=
  C8_text_keeps_trailing_delimiter stod_example (example_cli false) "name".toList
    ⟨"name".toList, [], .string none⟩ none ["prog".toList, "-name".toList]
    ["John".toList, "Smith".toList] [] rfl rfl (by decide) (by decide) rfl

/-- C8 (counterexample): `-name John Smith` stores the text `John Smith`
followed by a blank, which is not the text `John Smith`. -/
theorem C8_counterexample :
    ((example_cli false).parse stod_example
        ["prog".toList, "-name".toList, "John".toList, "Smith".toList]).map
      (fun r => (r.outcome, r.parser.stored "name".toList))
    = some (.returned true, some (.string (some "John Smith ".toList))) ∧
    "John Smith ".toList ≠ "John Smith".toList :=
  ⟨rfl, by decide⟩

/-- C9 (as amended): for every delimiter and every list of substrings none of
which contains the delimiter and whose last substring, if there is one, is not
empty, joining the substrings with the delimiter and applying
`parse_value<std::vector<std::string>>` gives back the list, empty substrings
in other places included. -/
theorem C9_split_join_roundtrip (delim : Char) (l : List Str)
    (h : ∀ s ∈ l, delim ∉ s) (hlast : l.getLast? ≠ some []) :
    parse_value_strings (join_with delim l) delim = l :=
  getlines_join_with delim l h hlast

/-- C9 (witness): the substrings `a`, the empty string and `b`, joined by
blanks. -/
theorem C9_witness :
    parse_value_strings (join_with ' ' ["a".toList, [], "b".toList]) ' ' =
      ["a".toList, [], "b".toList] :=
  C9_split_join_roundtrip ' ' ["a".toList, [], "b".toList] (by decide) (by decide)

/-- C9 (counterexample): a last substring that is empty is lost: the list `a`,
empty string joins to `a` followed by a blank, which splits to the single
substring `a`; and the list holding only the empty string comes back empty. -/
theorem C9_counterexample :
    parse_value_strings (join_with ' ' ["a".toList, []]) ' ' = ["a".toList] ∧
    parse_value_strings (join_with ' ' [[]]) ' ' = [] ∧
    (∀ s ∈ ["a".toList, []], ' ' ∉ s) :=
  ⟨rfl, rfl, by decide⟩

/-- C10: fail fast, partial results preserved, in both strategies. When
`parse` returns `false` having stopped at the token of index j, the map of
stored values is exactly the one that `parse` produces on the tokens before
index j: what was populated before the failure is kept, and no token at or
after index j has changed a declaration. -/
theorem C10_fail_fast_partial_results (stod : Str → Except StdException Float)
    (p : Cli_Parser) (argv : List Str) (r : Run)
    (h : p.parse stod argv = some r) (hfail : r.outcome = .returned false) :
    ∃ r', p.parse stod (argv.take (r.failing_token p.m_OrderMaters)) = some r' ∧
      r'.parser.m_ArgsMap = r.parser.m_ArgsMap := by
  unfold Cli_Parser.parse at h ⊢
  by_cases hmode : p.m_OrderMaters = true
  · simp only [hmode, if_true, Option.some.injEq] at h ⊢
    subst h
    refine ⟨_, rfl, ?_⟩
    simp only [Run.failing_token, if_true]
    exact (ordered_loop_fail_take stod _ 1 p argv hfail).2
  · simp only [hmode, if_false] at h ⊢
    simp only [Run.failing_token, hmode, if_false]
    unfold Cli_Parser.unordered_parse at h ⊢
    obtain ⟨_, _, h3⟩ := unordered_loop_fail_take stod _ 1 p argv r h hfail
    obtain ⟨r', hr'⟩ := unordered_loop_total stod (argv.take (r.i - 1)).length 1 p
      (argv.take (r.i - 1)) (by omega)
    have hr'' := unordered_loop_fuel_le stod _ (argv.length + 1) _ _ _ _
      (by rw [List.length_take]; omega) hr'
    rw [h3] at hr''
    refine ⟨r', hr', ?_⟩
    cases hr''
    rfl

/-- C10 (witness): the unordered run on `prog -name x -age 5 -zzz` and the
ordered run on `prog -age 5 -zzz 1`, each compared with the run on the tokens
before the failing one. -/
theorem C10_witness :
    (∃ r', (example_cli false).parse stod_example
        (["prog".toList, "-name".toList, "x".toList, "-age".toList, "5".toList,
          "-zzz".toList].take
          (example_run_unordered.failing_token (example_cli false).m_OrderMaters)) = some r' ∧
      r'.parser.m_ArgsMap = example_run_unordered.parser.m_ArgsMap) ∧
    (∃ r', (example_cli true).parse stod_example
        (["prog".toList, "-age".toList, "5".toList, "-zzz".toList, "1".toList].take
          (example_run_ordered.failing_token (example_cli true).m_OrderMaters)) = some r' ∧
      r'.parser.m_ArgsMap = example_run_ordered.parser.m_ArgsMap) :=
  ⟨C10_fail_fast_partial_results stod_example (example_cli false)
      ["prog".toList, "-name".toList, "x".toList, "-age".toList, "5".toList, "-zzz".toList]
      example_run_unordered rfl rfl,
    C10_fail_fast_partial_results stod_example (example_cli true)
      ["prog".toList, "-age".toList, "5".toList, "-zzz".toList, "1".toList]
      example_run_ordered rfl rfl⟩

/-- C11 (as amended): `add` with a key that is already registered leaves the
parser object as it was: the map still holds the old declaration under that
key, and `add`, which returns nothing, signals no failure. -/
theorem C11_add_existing_key_keeps_old (p : Cli_Parser) (k help_str : Str)
    (value : opt_var_arg) (a0 : Argument)
    (hord : p.m_ArgsMap.ordered) (hat : p.m_ArgsMap.at k = some a0) :
    p.add k help_str value = p ∧ (p.add k help_str value).m_ArgsMap.at k = some a0 := by
  have h : p.add k help_str value = p := by
    unfold Cli_Parser.add
    rw [emplace_of_at _ _ _ a0 hord hat]
  exact ⟨h, by rw [h]; exact hat⟩

/-- C11 (witness): `add("name", "new help", "x")` on the registry that already
holds `name`. -/
theorem C11_witness :
    (example_cli false).add "name".toList "new help".toList (.string (some "x".toList)) =
      example_cli false ∧
    ((example_cli false).add "name".toList "new help".toList
      (.string (some "x".toList))).m_ArgsMap.at "name".toList =
      some ⟨"name".toList, [], .string none⟩ :=
  C11_add_existing_key_keeps_old (example_cli false) "name".toList "new help".toList
    (.string (some "x".toList)) ⟨"name".toList, [], .string none⟩
    (by unfold ArgsMap.ordered; decide) rfl

/-- C11 (counterexample): after `add("name", "new help", "x")` on a registry
that holds `name` with an empty help text and no value, the map is unchanged
and still holds the old declaration, whose help text is not the new one; `add`
has no way to report this. -/
theorem C11_counterexample :
    ((example_cli false).add "name".toList "new help".toList
      (.string (some "x".toList))).m_ArgsMap = (example_cli false).m_ArgsMap ∧
    (((example_cli false).add "name".toList "new help".toList
      (.string (some "x".toList))).m_ArgsMap.at "name".toList).map Argument.help_str =
      some [] ∧
    ([] : Str) ≠ "new help".toList :=
  ⟨rfl, rfl, by decide⟩

/-- C17: for a registered key, `set_argument_value` started at index `i0`
hands to the coercion the text made of the maximal run of consecutive tokens
from `i0` on that do not begin with `-`, each followed by the delimiter, and on
return the index is `i0` plus the number of tokens of that run; the run ends at
the first flag-prefix token or at the end of the input. -/
theorem C17_set_argument_value_collects_run (stod : Str → Except StdException Float)
    (p : Cli_Parser) (key : Str) (a : Argument) (i0 : Nat) (argv : List Str)
    (ha : p.m_ArgsMap.at key = some a) :
    (p.set_argument_value stod key i0 argv =
      match a.emplace_parsed stod (span_text p.delim (value_run argv i0)) p.delim with
      | .error e => .error e
      | .ok a' =>
        .ok (i0 + (value_run argv i0).length,
          { p with m_ArgsMap := p.m_ArgsMap.assign key a' })) ∧
    (∀ t ∈ value_run argv i0, is_flag t = false) ∧
    argv.drop i0 = value_run argv i0 ++ argv.drop (i0 + (value_run argv i0).length) ∧
    span_end (argv.drop (i0 + (value_run argv i0).length)) = true := by
  have hdrop : argv.drop (i0 + (value_run argv i0).length) =
      (argv.drop i0).dropWhile (fun t => !is_flag t) := by
    rw [← List.drop_drop]
    exact drop_length_takeWhile _ _
  refine ⟨?_, ?_, ?_, ?_⟩
  · rw [set_argument_value_eq, ha]
  · intro t ht
    have := List.mem_takeWhile_imp ht
    simpa using this
  · rw [hdrop]
    exact (List.takeWhile_append_dropWhile _ _).symm
  · rw [hdrop]
    exact span_end_dropWhile _

/-- C17 (witness): `set_argument_value` for `name` started at index 2 of
`prog -name John Smith -age 30`. -/
theorem C17_witness :
    ((example_cli false).set_argument_value stod_example "name".toList 2
        ["prog".toList, "-name".toList, "John".toList, "Smith".toList, "-age".toList,
          "30".toList] =
      match (⟨"name".toList, [], .string none⟩ : Argument).emplace_parsed stod_example
        (span_text (example_cli false).delim
          (value_run ["prog".toList, "-name".toList, "John".toList, "Smith".toList,
            "-age".toList, "30".toList] 2)) (example_cli false).delim with
      | .error e => .error e
      | .ok a' =>
        .ok (2 + (value_run ["prog".toList, "-name".toList, "John".toList, "Smith".toList,
            "-age".toList, "30".toList] 2).length,
          { example_cli false with
            m_ArgsMap := (example_cli false).m_ArgsMap.assign "name".toList a' })) ∧
    (∀ t ∈ value_run ["prog".toList, "-name".toList, "John".toList, "Smith".toList,
        "-age".toList, "30".toList] 2, is_flag t = false) ∧
    (["prog".toList, "-name".toList, "John".toList, "Smith".toList, "-age".toList,
        "30".toList].drop 2 =
      value_run ["prog".toList, "-name".toList, "John".toList, "Smith".toList,
          "-age".toList, "30".toList] 2 ++
        (["prog".toList, "-name".toList, "John".toList, "Smith".toList, "-age".toList,
          "30".toList].drop
          (2 + (value_run ["prog".toList, "-name".toList, "John".toList, "Smith".toList,
            "-age".toList, "30".toList] 2).length))) ∧
    span_end (["prog".toList, "-name".toList, "John".toList, "Smith".toList, "-age".toList,
        "30".toList].drop
        (2 + (value_run ["prog".toList, "-name".toList, "John".toList, "Smith".toList,
          "-age".toList, "30".toList] 2).length)) = true :=
  C17_set_argument_value_collects_run stod_example (example_cli false) "name".toList
    ⟨"name".toList, [], .string none⟩ 2
    ["prog".toList, "-name".toList, "John".toList, "Smith".toList, "-age".toList,
      "30".toList] rfl

/-- C18: tokens that do not begin with `-` and stand before the first flag
token are ignored by `unordered_parse`: inserting any such tokens `xs` after
the program name and any leading tokens `ys` of that kind changes neither the
outcome of `parse`, nor the error message, nor any stored value (the parser
object ends up the same). -/
theorem C18_leading_non_flag_tokens_ignored (stod : Str → Except StdException Float)
    (p : Cli_Parser) (prog : Str) (ys xs rest : List Str)
    (hys : ∀ t ∈ ys, is_flag t = false) (hxs : ∀ t ∈ xs, is_flag t = false) :
    ∃ r1 r2, p.unordered_parse stod (prog :: (ys ++ rest)) = some r1 ∧
      p.unordered_parse stod (prog :: (ys ++ (xs ++ rest))) = some r2 ∧
      r2.outcome = r1.outcome ∧ r2.parser = r1.parser := by
  obtain ⟨r1, h1⟩ := unordered_parse_total stod p (prog :: (ys ++ rest))
  obtain ⟨r2, h2⟩ := unordered_parse_total stod p (prog :: (ys ++ (xs ++ rest)))
  refine ⟨r1, r2, h1, h2, ?_⟩
  have hyx : ∀ t ∈ ys ++ xs, is_flag t = false := by
    intro t ht
    rcases List.mem_append.mp ht with h | h
    · exact hys t h
    · exact hxs t h
  have e1 := unordered_loop_skip stod ys [prog] rest (rest.length + 2) p hys
  have e2 := unordered_loop_skip stod (ys ++ xs) [prog] rest (rest.length + 2) p hyx
  have hs := unordered_loop_shift stod ([prog] ++ ys) ([prog] ++ (ys ++ xs)) rest
    (rest.length + 2) 0 p
  simp only [Nat.add_zero] at hs
  unfold Cli_Parser.unordered_parse at h1 h2
  have f1 : (prog :: (ys ++ rest)).length + 1 = rest.length + 2 + ys.length := by
    simp only [List.length_cons, List.length_append]; omega
  have f2 : (prog :: (ys ++ (xs ++ rest))).length + 1 =
      rest.length + 2 + (ys ++ xs).length := by
    simp only [List.length_cons, List.length_append]; omega
  rw [f1] at h1
  rw [f2] at h2
  have a1 : prog :: (ys ++ rest) = [prog] ++ (ys ++ rest) := rfl
  have a2 : prog :: (ys ++ (xs ++ rest)) = [prog] ++ ((ys ++ xs) ++ rest) := by simp
  rw [a1] at h1
  rw [a2] at h2
  have l1 : (1 : Nat) = [prog].length := rfl
  rw [l1, e1] at h1
  rw [l1, e2] at h2
  rw [h1, h2] at hs
  simp only [Option.map_some', Option.some.injEq, Prod.mk.injEq] at hs
  exact ⟨hs.1.symm, hs.2.symm⟩

/-- C18 (witness): `x y` inserted after the program name of
`prog -name John -zzz`. -/
theorem C18_witness :
    ∃ r1 r2, (example_cli false).unordered_parse stod_example
        ("prog".toList :: ([] ++ ["-name".toList, "John".toList, "-zzz".toList])) = some r1 ∧
      (example_cli false).unordered_parse stod_example
        ("prog".toList :: ([] ++ (["x".toList, "y".toList] ++
          ["-name".toList, "John".toList, "-zzz".toList]))) = some r2 ∧
      r2.outcome = r1.outcome ∧ r2.parser = r1.parser :=
  C18_leading_non_flag_tokens_ignored stod_example (example_cli false) "prog".toList []
    ["x".toList, "y".toList] ["-name".toList, "John".toList, "-zzz".toList]
    (by decide) (by decide)

/-- C19: for every delimiter and every list of strings none of which contains
the delimiter, `parse_value<std::vector<std::string>>` applied to the text made
of each string followed by the delimiter (the text `set_argument_value`
builds) returns exactly that list, empty strings included; for the empty list
it returns the empty list. -/
theorem C19_textlist_stores_value_tokens (delim : Char) (l : List Str)
    (h : ∀ s ∈ l, delim ∉ s) :
    parse_value_strings (span_text delim l) delim = l :=
  getlines_span_text delim l h

/-- C19 (witness): the strings `a`, the empty string and `b`, and the empty
list. -/
theorem C19_witness :
    parse_value_strings (span_text ' ' ["a".toList, [], "b".toList]) ' ' =
      ["a".toList, [], "b".toList] ∧
    parse_value_strings (span_text ' ' []) ' ' = [] :=
  ⟨C19_textlist_stores_value_tokens ' ' ["a".toList, [], "b".toList] (by decide),
    C19_textlist_stores_value_tokens ' ' [] (by decide)⟩

end args

namespace cli_h

/-! ## Auxiliary lemmas for `cli.h` -/

theorem nodes_from_length (n : Nat) (cs : List Call) :
    ∀ k, (nodes_from n k cs).length = cs.length := by
  induction cs with
  | nil => intro k; rfl
  | cons c cs ih => intro k; simp [nodes_from, ih]

theorem nodes_from_getElem? (n : Nat) (cs : List Call) :
    ∀ (k i : Nat), (nodes_from n k cs)[i]? =
      (cs[i]?).map (fun c => decl_of c (if k + i + 1 < n then some (k + i + 1) else none)) := by
  induction cs with
  | nil => intro k i; simp [nodes_from]
  | cons c cs ih =>
    intro k i
    cases i with
    | zero => simp [nodes_from]
    | succ i =>
      simp only [nodes_from, List.getElem?_cons_succ, ih]
      have : k + 1 + i + 1 = k + (i + 1) + 1 := by omega
      rw [this]

theorem heap_of_length (cs : List Call) : (heap_of cs).length = cs.length :=
  nodes_from_length _ _ _

theorem heap_of_getElem? (cs : List Call) (i : Nat) :
    (heap_of cs)[i]? =
      (cs[i]?).map (fun c => decl_of c (if i + 1 < cs.length then some (i + 1) else none)) := by
  unfold heap_of
  rw [nodes_from_getElem?]
  simp only [Nat.zero_add]

theorem cli_add_state_of (cs : List Call) (c : Call) :
    cli_add (state_of cs) c.type (some c.name) c.flag c.desc c.optional =
      .ok (state_of (cs ++ [c])) := by
  have hlen := heap_of_length cs
  cases cs with
  | nil => rfl
  | cons c0 cs0 =>
    generalize hcs : c0 :: cs0 = cs at hlen
    have hn : 0 < cs.length := by rw [← hcs]; simp
    have hlast : (((heap_of cs ++ [(⟨none, none, none, false, .Arg_bool, none, none⟩ : cli_arg)]).set
        (heap_of cs).length (decl_of c none)))[cs.length - 1]? =
        (cs[cs.length - 1]?).map (fun c => decl_of c none) := by
      rw [List.getElem?_set_ne (by omega), List.getElem?_append_left (by omega),
        heap_of_getElem?]
      have : ¬ cs.length - 1 + 1 < cs.length := by omega
      simp only [this, if_false]
    obtain ⟨cl, hcl⟩ : ∃ cl, cs[cs.length - 1]? = some cl := by
      have : cs.length - 1 < cs.length := by omega
      exact ⟨cs[cs.length - 1], List.getElem?_eq_getElem this⟩
    rw [hcl] at hlast
    simp only [cli_add, cli_arg_alloc, cli_list_add, state_of]
    have hne : ¬ cs.length = 0 := by omega
    simp only [hne, if_false]
    simp only [decl_of] at hlast
    simp only [hlast, Option.map_some']
    have hne' : ¬ (cs ++ [c]).length = 0 := by simp
    simp only [hne', if_false]
    simp only [hlen]
    congr 2
    · apply List.ext_getElem?
      intro i
      rw [heap_of_getElem?]
      have hl1 : ((heap_of cs ++
          [(⟨none, none, none, false, .Arg_bool, none, none⟩ : cli_arg)]).set cs.length
          (decl_of c none)).length = cs.length + 1 := by simp [hlen]
      by_cases h1 : i = cs.length - 1
      · subst h1
        rw [List.getElem?_set_self (by simp only [decl_of] at hl1; rw [hl1]; omega)]
        rw [List.getElem?_append_left (by omega), hcl]
        have h3 : cs.length - 1 + 1 = cs.length := by omega
        have h2 : cs.length < (cs ++ [c]).length := by simp
        simp only [Option.map_some', decl_of, h3, h2, if_true]
      · rw [List.getElem?_set_ne (fun e => h1 e.symm)]
        by_cases h4 : i = cs.length
        · subst h4
          rw [List.getElem?_set_self (by simp [hlen])]
          rw [List.getElem?_append_right (Nat.le_refl _)]
          simp [decl_of]
        · rw [List.getElem?_set_ne (fun e => h4 e.symm)]
          by_cases h5 : i < cs.length
          · rw [List.getElem?_append_left (by omega), heap_of_getElem?,
              List.getElem?_append_left h5]
            have h6 : i + 1 < cs.length := by omega
            have h7 : i + 1 < (cs ++ [c]).length := by simp; omega
            simp only [h6, h7, if_true]
          · rw [List.getElem?_eq_none (by simp [hlen]; omega),
              List.getElem?_eq_none (by simp; omega)]
            rfl
    · simp

theorem cli_add_all_state_of (cs : List Call) :
    ∀ (done : List Call), cli_add_all (state_of done) cs = .ok (state_of (done ++ cs)) := by
  induction cs with
  | nil => intro done; simp [cli_add_all]
  | cons c cs ih =>
    intro done
    rw [cli_add_all, cli_add_state_of]
    simp only []
    rw [ih]
    simp

theorem walk_heap_of (cs : List Call) (m : Nat) :
    ∀ (k : Nat), k + m = cs.length →
      walk (heap_of cs) m (if k < cs.length then some k else none) =
        some ((heap_of cs).drop k) := by
  induction m with
  | zero =>
    intro k hk
    have h1 : ¬ k < cs.length := by omega
    simp only [h1, if_false]
    rw [List.drop_of_length_le (by rw [heap_of_length]; omega)]
    rfl
  | succ m ih =>
    intro k hk
    have h1 : k < cs.length := by omega
    have hg := heap_of_getElem? cs k
    rw [List.getElem?_eq_getElem h1] at hg
    simp only [h1, if_true, walk, hg, Option.map_some']
    have hnext : (decl_of cs[k] (if k + 1 < cs.length then some (k + 1) else none)).next =
        (if k + 1 < cs.length then some (k + 1) else none) := rfl
    rw [hnext, ih (k + 1) (by omega)]
    have hk' : k < (heap_of cs).length := by rw [heap_of_length]; exact h1
    rw [List.drop_eq_getElem_cons hk']
    have hg' := List.getElem?_eq_getElem hk'
    rw [hg] at hg'
    simp only [Option.map_some', Option.some.injEq] at hg' ⊢
    rw [← hg']

theorem cli_match_arg_at (arg : cli_arg) (i : Nat) (argv : List CStr) (tok : CStr)
    (htok : argv[i]? = some tok) (hmatch : cli_match_token arg tok = .ok true) :
    cli_match_arg arg i argv = .ok i := by
  have hi : i < argv.length := by
    by_contra hcon
    rw [List.getElem?_eq_none (Nat.le_of_not_lt hcon)] at htok
    cases htok
  have htok' : argv[i] = tok := by
    rw [List.getElem?_eq_getElem hi] at htok
    exact Option.some.inj htok
  unfold cli_match_arg
  rw [if_pos hi, List.drop_eq_getElem_cons hi, htok', cli_match_scan, hmatch]

theorem cli_match_token_fuel (arg : cli_arg) (tok : CStr) :
    cli_match_token arg tok ≠ .error .out_of_fuel := by
  unfold cli_match_token
  cases tok with
  | nil => simp
  | cons c ptr =>
    cases arg.name <;> cases arg.flag <;> simp only [] <;> split_ifs <;> simp

theorem cli_match_scan_fuel (arg : cli_arg) (l : List CStr) :
    ∀ (start : Nat), cli_match_scan arg l start ≠ .error .out_of_fuel := by
  induction l with
  | nil => intro start; simp [cli_match_scan]
  | cons tok rest ih =>
    intro start
    rw [cli_match_scan]
    have h := cli_match_token_fuel arg tok
    cases hm : cli_match_token arg tok with
    | error e =>
      rw [hm] at h
      simpa using h
    | ok b =>
      cases b with
      | true => simp
      | false => exact ih _

theorem cli_match_arg_fuel (arg : cli_arg) (start : Nat) (argv : List CStr) :
    cli_match_arg arg start argv ≠ .error .out_of_fuel := by
  unfold cli_match_arg
  split
  · exact cli_match_scan_fuel _ _ _
  · simp

theorem atoi_fuel (s : CStr) : atoi s ≠ .error .out_of_fuel := by
  unfold atoi
  simp only []
  split_ifs <;> simp

theorem cli_get_arg_data_fuel (arg : cli_arg) (start : Nat) (argv : List CStr) :
    cli_get_arg_data arg start argv ≠ .error .out_of_fuel := by
  unfold cli_get_arg_data
  split
  · simp
  · split
    · simp
    · simp only []
      split
      · simp
      · split
        · split
          · split <;> simp
          · simp
        · split
          · split
            · rename_i e he
              intro hc
              cases hc
              exact atoi_fuel _ he
            · simp
          · simp
        · simp

/-- The loop of `cli_build` does not run out of fuel when given `argc - i + 1`
units of it. -/
theorem cli_build_loop_fuel (fuel : Nat) :
    ∀ (st : State) (arg : Option Nat) (i : Nat) (argv : List CStr),
      argv.length ≤ fuel + i →
      cli_build_loop (fuel + 1) st arg i argv ≠ .error .out_of_fuel := by
  induction fuel with
  | zero =>
    intro st arg i argv h
    cases arg with
    | none => simp [cli_build_loop]
    | some a =>
      have : ¬ i < argv.length := by omega
      simp [cli_build_loop, this]
  | succ fuel ih =>
    intro st arg i argv h
    cases arg with
    | none => simp [cli_build_loop]
    | some a =>
      rw [cli_build_loop]
      split
      · split
        · simp
        · rename_i node hnode
          have hm := cli_match_arg_fuel node i argv
          cases hfound : cli_match_arg node i argv with
          | error e =>
            rw [hfound] at hm
            simpa using hm
          | ok found =>
            simp only []
            split
            · exact ih _ _ _ _ (by omega)
            · split
              · have hd := cli_get_arg_data_fuel node found argv
                cases hdata : cli_get_arg_data node found argv with
                | error e =>
                  rw [hdata] at hd
                  simpa using hd
                | ok res =>
                  obtain ⟨advance, node'⟩ := res
                  simp only []
                  split
                  · simp
                  · exact ih _ _ _ _ (by omega)
              · simp
      · simp

/-- The function `cli_build` never runs out of fuel. -/
theorem cli_build_fuel (st : State) (argv : List CStr) :
    cli_build st argv ≠ .error .out_of_fuel :=
  cli_build_loop_fuel argv.length st _ 1 argv (by omega)

/-- One iteration of the loop of `cli_build` on a declaration of type
`Arg_bool` whose token stands at the scan position. -/
theorem cli_build_loop_bool_step (fuel : Nat) (st : State) (a : Nat)
    (node : cli_arg) (i : Nat) (argv : List CStr) (tok : CStr)
    (hnode : st.heap[a]? = some node) (htype : node.type = .Arg_bool) (hi : 1 ≤ i)
    (htok : argv[i]? = some tok) (hmatch : cli_match_token node tok = .ok true) :
    cli_build_loop (fuel + 1) st (some a) i argv =
      cli_build_loop fuel
        { st with heap := st.heap.set a { node with data := some (.bool true) } }
        node.next (i + 1) argv := by
  have hlt : i < argv.length := by
    by_contra hcon
    rw [List.getElem?_eq_none (Nat.le_of_not_lt hcon)] at htok
    cases htok
  have hb : (i != 0) = true := by
    simp only [bne_iff_ne, ne_eq]
    omega
  rw [cli_build_loop]
  simp only [hlt, if_true, hnode, cli_match_arg_at node i argv tok htok hmatch, htype, hb]

theorem cli_match_token_flag_name (n m : cli_arg) (tok : CStr)
    (hf : n.flag = m.flag) (hn : n.name = m.name) :
    cli_match_token n tok = cli_match_token m tok := by
  unfold cli_match_token
  rw [hf, hn]

theorem cli_match_scan_flag_name (n m : cli_arg) (l : List CStr)
    (hf : n.flag = m.flag) (hn : n.name = m.name) :
    ∀ start, cli_match_scan n l start = cli_match_scan m l start := by
  induction l with
  | nil => intro start; rfl
  | cons tok rest ih =>
    intro start
    rw [cli_match_scan, cli_match_scan, cli_match_token_flag_name n m tok hf hn]
    cases cli_match_token m tok with
    | error e => rfl
    | ok b =>
      cases b with
      | true => rfl
      | false => exact ih _

theorem cli_match_scan_succ (n : cli_arg) (l : List CStr) :
    ∀ start, 1 ≤ start →
      cli_match_scan n l (start + 1) = (cli_match_scan n l start).map bump := by
  induction l with
  | nil => intro start _; rfl
  | cons tok rest ih =>
    intro start h
    rw [cli_match_scan, cli_match_scan]
    cases cli_match_token n tok with
    | error e => rfl
    | ok b =>
      cases b with
      | true =>
        have : bump start = start + 1 := by
          unfold bump
          rw [if_neg (by omega)]
        simp only [Except.map, this]
      | false => exact ih _ (by omega)

theorem cli_match_arg_cons (n : cli_arg) (i : Nat) (prog : CStr) (argv : List CStr)
    (h : 1 ≤ i) :
    cli_match_arg (shift_next n) (i + 1) (prog :: argv) = (cli_match_arg n i argv).map bump := by
  unfold cli_match_arg
  by_cases hi : i < argv.length
  · have h1 : i + 1 < (prog :: argv).length := by simp; omega
    rw [if_pos hi, if_pos h1, List.drop_succ_cons,
      cli_match_scan_flag_name (shift_next n) n _ rfl rfl, cli_match_scan_succ n _ i h]
  · have h1 : ¬ i + 1 < (prog :: argv).length := by simp; omega
    rw [if_neg hi, if_neg h1]
    rfl

theorem cli_get_arg_str_cons (start : Option CStr) (arg0 : Nat) (prog : CStr)
    (argv : List CStr) :
    cli_get_arg_str start (arg0 + 1) (prog :: argv) = cli_get_arg_str start arg0 argv := by
  unfold cli_get_arg_str
  simp only [List.getElem?_cons_succ, List.drop_succ_cons]

theorem cli_get_arg_data_cons (n : cli_arg) (found : Nat) (prog : CStr) (argv : List CStr) :
    cli_get_arg_data (shift_next n) (found + 1) (prog :: argv) =
      (cli_get_arg_data n found argv).map (fun r => (r.1, shift_next r.2)) := by
  obtain ⟨flag, name, desc, optional, type, data, next⟩ := n
  unfold cli_get_arg_data
  simp only [List.getElem?_cons_succ, cli_get_arg_str_cons, shift_next]
  cases argv[found]? with
  | none => rfl
  | some tok =>
    cases flag with
    | none =>
      cases name with
      | none => rfl
      | some fl =>
        cases type
        · simp only []; split_ifs <;> rfl
        · simp only []; split_ifs <;> rfl
        · simp only []
          split_ifs
          · rfl
          · cases atoi (List.drop (fl.length + 1) tok) <;> rfl
          · rfl
    | some fl =>
      cases type
      · simp only []; split_ifs <;> rfl
      · simp only []; split_ifs <;> rfl
      · simp only []
        split_ifs
        · rfl
        · cases atoi (List.drop (fl.length + 1) tok) <;> rfl
        · rfl

theorem bump_bne (found : Nat) : (bump found != 0) = (found != 0) := by
  unfold bump
  by_cases h : found = 0
  · simp [h]
  · simp [h]

theorem getElem?_cons_map_succ (n0 : cli_arg) (heap : List cli_arg) (a : Nat) :
    (n0 :: heap.map shift_next)[a + 1]? = (heap[a]?).map shift_next := by
  simp only [List.getElem?_cons_succ, List.getElem?_map]

theorem set_cons_map_succ (n0 : cli_arg) (heap : List cli_arg) (a : Nat) (n : cli_arg) :
    (n0 :: heap.map shift_next).set (a + 1) (shift_next n) =
      n0 :: (heap.set a n).map shift_next := by
  simp only [List.set_cons_succ, List.map_set]

/-- The loop of `cli_build` run with one more object in front of the heap and
one more token in front of the token vector does the same as without them,
one address and one index further on. -/
theorem cli_build_loop_cons (n0 : cli_arg) (al : cli_arg_list) (prog : CStr)
    (argv : List CStr) (fuel : Nat) :
    ∀ (st : State) (arg : Option Nat) (i : Nat), 1 ≤ i →
      cli_build_loop fuel ⟨n0 :: st.heap.map shift_next, al⟩ (arg.map (· + 1)) (i + 1)
          (prog :: argv) =
        (cli_build_loop fuel st arg i argv).map
          (fun r => (r.1.map (· + 1), ⟨n0 :: r.2.heap.map shift_next, al⟩)) := by
  induction fuel with
  | zero => intro st arg i _; rfl
  | succ fuel ih =>
    intro st arg i hi
    cases arg with
    | none => simp only [Option.map_none', cli_build_loop]; rfl
    | some a =>
      simp only [Option.map_some']
      rw [cli_build_loop, cli_build_loop]
      by_cases hlt : i < argv.length
      · have hlt' : i + 1 < (prog :: argv).length := by simp; omega
        simp only [hlt, hlt', if_true, getElem?_cons_map_succ]
        cases hnode : st.heap[a]? with
        | none => rfl
        | some node =>
          simp only [Option.map_some', cli_match_arg_cons node i prog argv hi]
          cases hfound : cli_match_arg node i argv with
          | error e => rfl
          | ok found =>
            have hmap : Except.map bump (Except.ok found : Except Fault Nat) =
                .ok (bump found) := rfl
            rw [hmap]
            simp only []
            by_cases hb : node.type = .Arg_bool
            · have hb' : (shift_next node).type = .Arg_bool := hb
              rw [if_pos hb', if_pos hb, bump_bne]
              show cli_build_loop fuel
                  ⟨(n0 :: st.heap.map shift_next).set (a + 1)
                    (shift_next { node with data := some (.bool (found != 0)) }), al⟩
                  (node.next.map (· + 1)) (i + 1 + 1) (prog :: argv) = _
              rw [set_cons_map_succ]
              exact ih ⟨st.heap.set a ({ node with data := some (.bool (found != 0)) }),
                st.arg_list⟩ node.next (i + 1) (by omega)
            · have hb' : ¬ (shift_next node).type = .Arg_bool := hb
              rw [if_neg hb', if_neg hb]
              by_cases hf : found = 0
              · have hbf : bump found = 0 := by unfold bump; rw [if_pos hf]
                have h1 : ¬ bump found ≠ 0 := by rw [hbf]; simp
                have h2 : ¬ found ≠ 0 := by simp [hf]
                rw [if_neg h1, if_neg h2]
                rfl
              · have hbf : bump found = found + 1 := by
                  unfold bump; rw [if_neg hf]
                have hbne : bump found ≠ 0 := by rw [hbf]; omega
                rw [if_pos hbne, if_pos hf, hbf, cli_get_arg_data_cons]
                cases hdata : cli_get_arg_data node found argv with
                | error e => rfl
                | ok res =>
                  obtain ⟨advance, node'⟩ := res
                  have hmap2 : Except.map (fun r : Nat × cli_arg => (r.1, shift_next r.2))
                      (Except.ok (advance, node') : Except Fault (Nat × cli_arg)) =
                      .ok (advance, shift_next node') := rfl
                  rw [hmap2]
                  simp only []
                  by_cases hadv : advance = 0
                  · rw [if_pos hadv, if_pos hadv, set_cons_map_succ]
                    rfl
                  · rw [if_neg hadv, if_neg hadv, set_cons_map_succ]
                    show cli_build_loop fuel ⟨n0 :: (st.heap.set a node').map shift_next, al⟩
                      (node'.next.map (· + 1)) (i + 1 + advance) (prog :: argv) = _
                    rw [Nat.add_right_comm]
                    exact ih ⟨st.heap.set a node', st.arg_list⟩ node'.next
                      (i + advance) (by omega)
      · have hlt' : ¬ i + 1 < (prog :: argv).length := by simp; omega
        simp only [hlt, hlt', if_false]
        rfl

theorem heap_of_cons (c : Call) (cs : List Call) :
    heap_of (c :: cs) =
      decl_of c (if cs.length = 0 then none else some 1) :: (heap_of cs).map shift_next := by
  apply List.ext_getElem?
  intro i
  rw [heap_of_getElem?]
  cases i with
  | zero =>
    simp only [List.getElem?_cons_zero, Option.map_some', List.length_cons, Nat.zero_add]
    by_cases h : cs.length = 0
    · simp [h]
    · have : 1 < cs.length + 1 := by omega
      simp [h, this]
  | succ i =>
    simp only [List.getElem?_cons_succ, List.getElem?_map, heap_of_getElem?, List.length_cons]
    cases cs[i]? with
    | none => rfl
    | some c' =>
      simp only [Option.map_some', shift_next, decl_of]
      by_cases h : i + 1 < cs.length
      · have : i + 1 + 1 < cs.length + 1 := by omega
        simp [h, this]
      · have : ¬ i + 1 + 1 < cs.length + 1 := by omega
        simp [h, this]

theorem build_after_eq (calls : List Call) (argv : List CStr) :
    build_after calls argv =
      (cli_build (state_of calls) argv).map (fun r => (r.1, r.2.values)) := by
  unfold build_after
  have h := cli_add_all_state_of calls []
  simp only [List.nil_append] at h
  have h0 : state_of [] = State.init := rfl
  rw [h0] at h
  rw [h]
  simp only []
  cases cli_build (state_of calls) argv with
  | error e => rfl
  | ok r => rfl

theorem build_after_bool_first (c : Call) (cs : List Call) (prog tok : CStr)
    (rest : List CStr)
    (htype : c.type = .Arg_bool)
    (hmatch : cli_match_token (decl_of c none) tok = .ok true) :
    build_after (c :: cs) (prog :: tok :: rest) =
      (build_after cs (tok :: rest)).map
        (fun r => (r.1.map (· + 1), some (.bool true) :: r.2)) := by
  rw [build_after_eq, build_after_eq]
  unfold cli_build
  have hnode : (state_of (c :: cs)).heap[0]? =
      some (decl_of c (if cs.length = 0 then none else some 1)) := by
    show (heap_of (c :: cs))[0]? = _
    rw [heap_of_cons, List.getElem?_cons_zero]
  have hhead : (state_of (c :: cs)).arg_list.head = some 0 := rfl
  have hstep := cli_build_loop_bool_step ((tok :: rest).length + 1) (state_of (c :: cs)) 0
    (decl_of c (if cs.length = 0 then none else some 1)) 1 (prog :: tok :: rest) tok
    hnode htype (Nat.le_refl 1) (by simp)
    ((cli_match_token_flag_name _ _ tok rfl rfl).trans hmatch)
  have hlen : (prog :: tok :: rest).length + 1 = (tok :: rest).length + 1 + 1 := rfl
  rw [hhead, hlen, hstep]
  have hnext : (decl_of c (if cs.length = 0 then none else some 1)).next =
      (state_of cs).arg_list.head.map (· + 1) := by
    simp only [decl_of, state_of]
    by_cases h : cs.length = 0
    · simp [h]
    · simp [h]
  show Except.map _ (cli_build_loop ((tok :: rest).length + 1)
    ⟨(heap_of (c :: cs)).set 0
      ⟨c.flag, some c.name, c.desc, c.optional, c.type, some (.bool true),
        (decl_of c (if cs.length = 0 then none else some 1)).next⟩,
      (state_of (c :: cs)).arg_list⟩
    (decl_of c (if cs.length = 0 then none else some 1)).next (1 + 1)
    (prog :: tok :: rest)) = _
  rw [heap_of_cons, List.set_cons_zero, hnext]
  have hsim := cli_build_loop_cons
    ⟨c.flag, some c.name, c.desc, c.optional, c.type, some (.bool true),
      (state_of cs).arg_list.head.map (· + 1)⟩
    (state_of (c :: cs)).arg_list prog (tok :: rest) ((tok :: rest).length + 1)
    (state_of cs) (state_of cs).arg_list.head 1 (Nat.le_refl 1)
  have hh : (state_of cs).heap = heap_of cs := rfl
  rw [hh] at hsim
  rw [hsim]
  cases cli_build_loop ((tok :: rest).length + 1) (state_of cs)
      (state_of cs).arg_list.head 1 (tok :: rest) with
  | error e => rfl
  | ok r =>
    simp only [Except.map, State.values, List.map_cons, List.map_map]
    congr 2

/-! ## The claims about `cli.h` -/

/-- C12 (evaluation at the failing input): for the declaration
`cli_str("name", "n", NULL)` and the tokens `prog xname -n`, `cli_match_arg`
started at 1 returns 1, the index of `xname`, a token that does not begin with
`-`; the first token that begins with `-` and whose remainder contains the flag
or the name is `-n`, at index 2. -/
theorem C12_match_token_without_dash :
    cli_match_arg (decl_of call_name_n none) 1
        ["prog".toList, "xname".toList, "-n".toList] = .ok 1 ∧
    "xname".toList.head? ≠ some '-' ∧
    cli_match_arg (decl_of call_name_n none) 2
        ["prog".toList, "xname".toList, "-n".toList] = .ok 2 :=
  ⟨rfl, by decide, rfl⟩

/-- C13 (evaluation at the failing input): after `cli_int("age", "age", NULL)`,
`cli_build` on `prog -age 30` returns `NULL` and stores 0 for `age`, the
`atoi` of what is left of the token `-age` after the flag, although the token
that follows holds 30. -/
theorem C13_int_read_from_flag_token :
    build_after [call_age] ["prog".toList, "-age".toList, "30".toList] =
      .ok (none, [some (.int 0)]) ∧
    atoi "30".toList = .ok 30 :=
  ⟨rfl, rfl⟩

/-- C14: a Presence declaration never requires a following value. In the loop
of `cli_build`, when the declaration at hand is of type `Arg_bool` and the
token at the scan position `i` (at least 1, as in `cli_build`) matches it, the
declaration is stored as `true` and exactly that token is consumed: the loop
goes on with the next declaration at position `i + 1` and does not run out of
fuel; when the input ends with that token `cli_build` returns the next
declaration, and when the declaration is the last one it returns `NULL`, in
both cases with `true` stored. For a Presence declaration registered first
whose token follows the program name, the pointer returned and the values of
the other declarations are those of `cli_build` for the other declarations on
the token vector that begins at the matched token, with `true` put in front;
alone in the registry, it gives `NULL` and `true`. -/
theorem C14_presence_consumes_one_token (fuel : Nat) (st : State) (a : Nat)
    (node : cli_arg) (i : Nat) (argv : List CStr) (tok : CStr)
    (hnode : st.heap[a]? = some node) (htype : node.type = .Arg_bool) (hi : 1 ≤ i)
    (htok : argv[i]? = some tok) (hmatch : cli_match_token node tok = .ok true)
    (hfuel : argv.length ≤ fuel + i + 1) :
    (cli_build_loop (fuel + 2) st (some a) i argv =
        cli_build_loop (fuel + 1)
          { st with heap := st.heap.set a { node with data := some (.bool true) } }
          node.next (i + 1) argv ∧
      cli_build_loop (fuel + 2) st (some a) i argv ≠ .error .out_of_fuel) ∧
    (argv.length ≤ i + 1 →
      cli_build_loop (fuel + 2) st (some a) i argv =
        .ok (node.next,
          { st with heap := st.heap.set a { node with data := some (.bool true) } })) ∧
    (node.next = none →
      cli_build_loop (fuel + 2) st (some a) i argv =
        .ok (none,
          { st with heap := st.heap.set a { node with data := some (.bool true) } })) ∧
    (∀ (c : Call) (cs : List Call) (prog first : CStr) (rest : List CStr),
      c.type = .Arg_bool → cli_match_token (decl_of c none) first = .ok true →
      build_after (c :: cs) (prog :: first :: rest) =
          (build_after cs (first :: rest)).map
            (fun r => (r.1.map (· + 1), some (.bool true) :: r.2)) ∧
        build_after [c] (prog :: first :: rest) = .ok (none, [some (.bool true)])) := by
  have hstep := cli_build_loop_bool_step (fuel + 1) st a node i argv tok hnode htype hi
    htok hmatch
  refine ⟨⟨hstep, ?_⟩, ?_, ?_, ?_⟩
  · rw [hstep]
    exact cli_build_loop_fuel fuel _ _ _ _ (by omega)
  · intro hend
    rw [hstep]
    cases hn : node.next with
    | none => simp [cli_build_loop]
    | some b =>
      have : ¬ i + 1 < argv.length := by omega
      simp [cli_build_loop, this]
  · intro hlast
    rw [hstep, hlast]
    simp [cli_build_loop]
  · intro c cs prog first rest hc hm
    refine ⟨build_after_bool_first c cs prog first rest hc hm, ?_⟩
    rw [build_after_bool_first c [] prog first rest hc hm]
    rfl

/-- C14 (witness): with `verbose` (Presence) registered first, `cli_build` on
`prog -verbose`, where the input ends after the flag, stores `true` for
`verbose` and returns the next declaration, for which no token is left; on
`prog -verbose -name x`, with `name` an Integer declaration, it stores `true`
for `verbose` and goes on to match `name` at the token `-name`; with `verbose`
alone it returns `NULL`. -/
theorem C14_witness :
    cli_build (state_of [call_verbose, call_name]) ["prog".toList, "-verbose".toList] =
      .ok (some 1,
        { state_of [call_verbose, call_name] with
          heap := (state_of [call_verbose, call_name]).heap.set 0
            { decl_of call_verbose (some 1) with data := some (.bool true) } }) ∧
    build_after [call_verbose, call_name] ["prog".toList, "-verbose".toList] =
      .ok (some 1, [some (.bool true), none]) ∧
    build_after [call_verbose, call_name_int]
        ["prog".toList, "-verbose".toList, "-name".toList, "x".toList] =
      .ok (none, [some (.bool true), some (.int 0)]) ∧
    build_after [call_verbose] ["prog".toList, "-verbose".toList] =
      .ok (none, [some (.bool true)]) :=
  ⟨(C14_presence_consumes_one_token 1 (state_of [call_verbose, call_name]) 0
      (decl_of call_verbose (some 1)) 1 ["prog".toList, "-verbose".toList]
      "-verbose".toList rfl rfl (by decide) rfl rfl (by decide)).2.1 (by decide),
    ((C14_presence_consumes_one_token 1 (state_of [call_verbose, call_name]) 0
      (decl_of call_verbose (some 1)) 1 ["prog".toList, "-verbose".toList]
      "-verbose".toList rfl rfl (by decide) rfl rfl (by decide)).2.2.2
      call_verbose [call_name] "prog".toList "-verbose".toList [] rfl rfl).1,
    ((C14_presence_consumes_one_token 1 (state_of [call_verbose, call_name]) 0
      (decl_of call_verbose (some 1)) 1 ["prog".toList, "-verbose".toList]
      "-verbose".toList rfl rfl (by decide) rfl rfl (by decide)).2.2.2
      call_verbose [call_name_int] "prog".toList "-verbose".toList
      ["-name".toList, "x".toList] rfl rfl).1,
    ((C14_presence_consumes_one_token 1 (state_of [call_verbose, call_name]) 0
      (decl_of call_verbose (some 1)) 1 ["prog".toList, "-verbose".toList]
      "-verbose".toList rfl rfl (by decide) rfl rfl (by decide)).2.2.2
      call_verbose [] "prog".toList "-verbose".toList [] rfl rfl).2⟩

/-- C15 (evaluation at the failing input): after `cli_bool("verbose", ...)`
alone, `cli_build` on the empty token vector (`argc == 1`) returns the
declaration `verbose` itself, which `cli` reports as an error, and stores
nothing for it; with two Presence declarations and the single token `x`, it
returns the second one. -/
theorem C15_presence_needs_a_token :
    build_after [call_verbose] ["prog".toList] = .ok (some 0, [none]) ∧
    build_after [call_verbose, call_verbose] ["prog".toList, "x".toList] =
      .ok (some 1, [some (.bool false), none]) :=
  ⟨rfl, rfl⟩

/-- C16: after any sequence of calls of `cli_add` from the initial state, the
traversal from `arg_list.head` along `next` meets exactly the declarations of
the calls in call order, each with the `name`, `flag`, `desc`, `type` and
`optional` given and with `data == NULL`; `arg_list.tail` is the last of them
and `arg_list.size` is their number. -/
theorem C16_registry_keeps_call_order (calls : List Call) :
    ∃ st nodes, cli_add_all State.init calls = .ok st ∧
      walk st.heap calls.length st.arg_list.head = some nodes ∧
      nodes.map (fun n => { n with next := none }) = calls.map (fun c => decl_of c none) ∧
      st.arg_list.tail.bind (fun t => st.heap[t]?) = nodes.getLast? ∧
      st.arg_list.size = calls.length := by
  refine ⟨state_of calls, heap_of calls, ?_, ?_, ?_, ?_, rfl⟩
  · have h := cli_add_all_state_of calls []
    simpa using h
  · have h := walk_heap_of calls calls.length 0 (by omega)
    simp only [List.drop_zero] at h
    simp only [state_of]
    by_cases h0 : calls.length = 0
    · have h1 : ¬ 0 < calls.length := by omega
      simpa only [h0, h1, if_true, if_false] using h
    · have h1 : 0 < calls.length := by omega
      simpa only [h0, h1, if_true, if_false] using h
  · apply List.ext_getElem?
    intro i
    simp only [List.getElem?_map, heap_of_getElem?]
    cases calls[i]? with
    | none => rfl
    | some c => rfl
  · simp only [state_of]
    by_cases h0 : calls.length = 0
    · have : calls = [] := List.length_eq_zero.mp h0
      subst this
      rfl
    · simp only [h0, if_false, Option.some_bind]
      rw [List.getLast?_eq_getElem?, heap_of_length]

/-- C20 (evaluation at the failing input): for the declaration
`cli_int("name", "abcde", NULL)` and the tokens `prog -name`, `cli_match_arg`
returns index 1 (the name occurs in the token), the length test of
`cli_get_arg_data` passes since the token and the flag both have 5 characters,
and `len + 1` is 6: the pointer is moved past the terminating NUL and then
read by `atoi`. -/
theorem C20_skip_passes_terminator :
    cli_match_arg (decl_of call_name_abcde none) 1 ["prog".toList, "-name".toList] = .ok 1 ∧
    ¬ ("abcde".toList.length + 1 ≤ "-name".toList.length) ∧
    cli_get_arg_data (decl_of call_name_abcde none) 1 ["prog".toList, "-name".toList] =
      .error .undefined ∧
    build_after [call_name_abcde] ["prog".toList, "-name".toList] = .error .undefined :=
  ⟨rfl, by decide, rfl, rfl⟩

end cli_h
